import Mathlib

/-!
Verification development for the cached query engine of the flecs ECS
runtime (source file: src/query/cache/cache.c).

The C code is shallowly embedded.  Stateful structures become explicit
record types, machine integers become natural numbers with explicit
reductions modulo 2^64 where unsigned wrap-around matters, and fallible
operations return Except values.  External collaborators that are not part
of the repository sources (the id API, builtin entities, the uncached
iterator) are modelled from the specification and marked as such in their
doc comments.

The development has three parts:
1. the ordered match list with grouping (insert, remove, group creation
   and deletion), embedding flecs_query_cache_insert_table_node,
   flecs_query_cache_remove_table_node and
   flecs_query_cache_find_group_insertion_node;
2. the table index with rematching, embedding flecs_query_rematch,
   flecs_query_cache_match_table, flecs_query_cache_unmatch_table and
   flecs_query_cache_entity_count;
3. signature analysis and cache initialization, embedding
   flecs_query_cache_process_signature,
   flecs_query_cache_for_each_component_monitor and
   flecs_query_cache_init.
-/

namespace FlecsQueryCache

/-- Size of the unsigned 64-bit integer domain of entity, table and group
ids. -/
def u64 : Nat := 2 ^ 64

/-- Unsigned 64-bit subtraction.  It models the C expression a - b on
uint64_t operands (both < 2^64), which wraps modulo 2^64.  Used by the
closest-group comparison in flecs_query_cache_find_group_insertion_node
(cache.c lines 147-152). -/
def usub (a b : Nat) : Nat := (a + u64 - b) % u64

/-- Modelled from the spec: ids are opaque 64-bit identifiers (glossary);
an id is either a plain entity or a relationship pair.  The pair
constructor models the external ecs_pair id composition, which is
injective on the (relation, target) arguments. -/
inductive CacheId where
  | entity (e : Nat)
  | pair (rel tgt : Nat)
deriving DecidableEq, Repr

/-- Modelled from the spec: the builtin wildcard entity.  Only its
distinctness from other builtin entities matters here. -/
def EcsWildcard : Nat := 1

/-- Modelled from the spec: the builtin inheritance relation IsA. -/
def EcsIsA : Nat := 2

/-- One term reference (src, first or second of a term).  The C stores
these as bit flags on ecs_term_ref_t.id; the booleans model the flag
tests performed by cache.c (EcsUp, EcsSelf, EcsCascade, EcsDesc,
EcsIsEntity, EcsIsVariable) together with the external test
ecs_id_is_wildcard on the reference (modelled from the spec: true when
the reference is a wildcard). -/
structure TermRef where
  isVariable : Bool
  isWildcard : Bool
  self : Bool
  up : Bool
  cascade : Bool
  descMod : Bool
  isEntity : Bool
deriving DecidableEq, Repr

/-- A query term as consumed by cache.c: the three references, the
traversal relation, the term id, the test term.inout == EcsInOutFilter,
the test term.oper == EcsAnd, and the external test
ecs_term_match_this(term) (modelled from the spec: true when the source
is the this variable). -/
structure Term where
  first : TermRef
  src : TermRef
  second : TermRef
  trav : Nat
  id : CacheId
  inoutFilter : Bool
  operIsAnd : Bool
  matchThis : Bool
deriving DecidableEq, Repr

def defaultTermRef : TermRef :=
  ⟨false, false, false, false, false, false, false⟩

def defaultTerm : Term :=
  ⟨defaultTermRef, defaultTermRef, defaultTermRef, 0, CacheId.entity 0,
   false, false, false⟩

/-- Association-list lookup, modelling ecs_map_get keyed by a 64-bit id. -/
def alookup {β : Type} (k : Nat) : List (Nat × β) → Option β
  | [] => none
  | p :: rest => if p.1 = k then some p.2 else alookup k rest

/-- Association-list removal, modelling ecs_map_remove and
ecs_map_remove_free. -/
def aremove {β : Type} (k : Nat) (m : List (Nat × β)) : List (Nat × β) :=
  m.filter (fun p => p.1 != k)

/-- The grouping-relevant configuration of ecs_query_cache_t: whether
group_by_callback is set, the cascade_by term index, the query terms
(read by flecs_query_cache_find_group_insertion_node for the Desc
modifier), presence of the on_group_create and on_group_delete callbacks,
and the bound query entity (0 when absent).  The on_group_create user
callback is modelled as a pure function from group id to context. -/
structure GroupConfig where
  groupingEnabled : Bool
  cascadeBy : Nat
  terms : List Term
  hasOnGroupCreate : Bool
  onGroupCreate : Nat → Nat
  hasOnGroupDelete : Bool
  entity : Nat

/-- The ordered-match-list part of ecs_query_cache_t.  The global doubly
linked list of match records is represented by the sequence of the group
ids of its matches, head to tail (each list element is the _group_id
field of one ecs_query_cache_match_t).  The group index maps a group id
to the group context (ecs_query_cache_table_list_t.info.ctx); the
intrusive first and last pointers of a group are derived from the list:
they delimit the occurrences of the group id.  matchCount is the
match_count counter of the cache. -/
structure CacheListState where
  list : List Nat
  groups : List (Nat × Nat)
  matchCount : Nat

/-- The iteration direction used by group insertion (cache.c lines
120-126): descending exactly when there is a cascade term and its source
carries the Desc modifier. -/
def cacheDesc (cfg : GroupConfig) : Bool :=
  if cfg.cascadeBy = 0 then false
  else ((cfg.terms.getD (cfg.cascadeBy - 1) defaultTerm).src).descMod

/-- One step of the closest-group scan of
flecs_query_cache_find_group_insertion_node (cache.c lines 128-158):
skip candidates on the wrong side of the new group id, then keep the
candidate whose unsigned distance usub groupId id is smaller (ascending)
or larger (descending) than that of the current closest id. -/
def findClosestStep (desc : Bool) (groupId : Nat) (acc : Option Nat)
    (id : Nat) : Option Nat :=
  if if desc then id ≤ groupId else groupId ≤ id then acc
  else
    match acc with
    | none => some id
    | some closest =>
        if (if desc then usub groupId closest < usub groupId id
            else usub groupId id < usub groupId closest) then some id
        else acc

/-- Models flecs_query_cache_find_group_insertion_node (cache.c 107-165).
The C iterates the group map, visiting every live group id exactly once
in unspecified order and skipping groups with an empty sub-list; the
model folds over the match list, which visits exactly the ids of the
nonempty groups (possibly several times; repeats cannot change the
accumulator because the comparison is strict).  The result is the id of
the group after whose last node the new group is spliced, or none when
the new group must become the head of the list. -/
def flecs_query_cache_find_group_insertion_node (desc : Bool)
    (l : List Nat) (groupId : Nat) : Option Nat :=
  l.foldl (findClosestStep desc groupId) none

/-- Insert x immediately after the last occurrence of t.  This realizes
the list splice performed by flecs_query_cache_create_group (insertion
after closest_list.last, cache.c lines 195-215) and by the nonempty
branch of flecs_query_cache_insert_table_node (insertion after the group
list.last, cache.c lines 355-378), since the last pointer of a group is
the last occurrence of its id in the ordered list. -/
def insertAfterLast (t x : Nat) : List Nat → List Nat
  | [] => [x]
  | a :: rest =>
      if t ∈ rest then a :: insertAfterLast t x rest
      else if a = t then a :: x :: rest
      else a :: rest

/-- Models flecs_query_cache_ensure_group (cache.c 53-72): create the map
entry for a new group, zero-initialized except for the context produced
by on_group_create when that callback is registered. -/
def flecs_query_cache_ensure_group (cfg : GroupConfig)
    (groups : List (Nat × Nat)) (g : Nat) : List (Nat × Nat) :=
  match alookup g groups with
  | some _ => groups
  | none =>
      groups ++ [(g, if cfg.hasOnGroupCreate then cfg.onGroupCreate g else 0)]

/-- Models flecs_query_cache_insert_table_node (cache.c 335-409) for a
match whose group-by callback value is g0.  Returns the new state and
whether the EcsEmpty tag was removed from the bound entity (cache.c
lines 345-348: the list was empty and an entity is bound).  The group id
actually stored is g0 under grouping and 0 otherwise
(flecs_query_cache_compute_group_id, cache.c 27-42).  With grouping, a
match for a group that already has nodes is spliced after that group
last node; a match for a fresh group is inserted at the position chosen
by flecs_query_cache_create_group (cache.c 167-216). -/
def flecs_query_cache_insert_table_node (cfg : GroupConfig)
    (c : CacheListState) (g0 : Nat) : CacheListState × Bool :=
  let emptyRemoved := c.list.isEmpty && (cfg.entity != 0)
  let g := if cfg.groupingEnabled then g0 else 0
  if cfg.groupingEnabled then
    let groups := flecs_query_cache_ensure_group cfg c.groups g
    let list :=
      if g ∈ c.list then insertAfterLast g g c.list
      else
        match flecs_query_cache_find_group_insertion_node (cacheDesc cfg)
            c.list g with
        | none => g :: c.list
        | some closest => insertAfterLast closest g c.list
    (⟨list, groups, c.matchCount + 1⟩, emptyRemoved)
  else
    (⟨c.list ++ [g], c.groups, c.matchCount + 1⟩, emptyRemoved)

/-- The group-emptied test of flecs_query_cache_remove_table_node
(cache.c lines 283-317) expressed on the group ids of the removed match
(g), of its list predecessor (prev0) and of its successor (next0).  The
first two rewrites mirror lines 287-296 (the match is the cache head or
tail), the next two mirror lines 303-310 (the neighbor belongs to
another group), and the final match mirrors the condition on line 313. -/
def removedGroupFlag (g : Nat) (prev0 next0 : Option Nat) : Bool :=
  let p1 := if prev0.isNone then next0 else prev0
  let n1 := if next0.isNone then p1 else next0
  let p2 := match p1 with
    | some x => if x = g then p1 else n1
    | none => p1
  let n2 := match n1 with
    | some x => if x = g then n1 else p2
    | none => n1
  match p2, n2 with
  | none, none => true
  | some x, _ => x != g
  | none, some _ => false

/-- Models flecs_query_cache_remove_table_node (cache.c 244-333) for the
match at position i of the ordered list.  Returns the new state together
with the list of (group id, group context) pairs passed to
on_group_delete.  The early return at lines 260-266 (the match is not in
any list) is taken when grouping is on and the group map has no entry
for the match group.  When the group-emptied condition holds the group
is deleted (flecs_query_cache_remove_group, cache.c 74-89): the
callback fires if registered and the map entry is removed.  In every
non-early path match_count is incremented (line 332). -/
def flecs_query_cache_remove_table_node (cfg : GroupConfig)
    (c : CacheListState) (i : Nat) : CacheListState × List (Nat × Nat) :=
  if h : i < c.list.length then
    let g := c.list.get ⟨i, h⟩
    if cfg.groupingEnabled ∧ alookup g c.groups = none then (c, [])
    else
      if cfg.groupingEnabled then
        let prev0 : Option Nat := if i = 0 then none else c.list.get? (i - 1)
        let next0 : Option Nat := c.list.get? (i + 1)
        if removedGroupFlag g prev0 next0 then
          let events := if cfg.hasOnGroupDelete then
              (match alookup g c.groups with
               | some ctx => [(g, ctx)]
               | none => []) else []
          (⟨c.list.eraseIdx i, aremove g c.groups, c.matchCount + 1⟩, events)
        else
          (⟨c.list.eraseIdx i, c.groups, c.matchCount + 1⟩, [])
      else
        (⟨c.list.eraseIdx i, c.groups, c.matchCount + 1⟩, [])
  else (c, [])

/-- One mutation of the ordered match list: adding the match of a table
whose group-by value is g, or removing the match at position i. -/
inductive CacheOp where
  | insert (g : Nat)
  | removeAt (i : Nat)

def applyCacheOp (cfg : GroupConfig) (c : CacheListState) :
    CacheOp → CacheListState
  | .insert g => (flecs_query_cache_insert_table_node cfg c g).1
  | .removeAt i => (flecs_query_cache_remove_table_node cfg c i).1

/-- The freshly initialized ordered list of a cache: no matches, no
groups, match_count 0 (the cache is allocated zeroed). -/
def emptyCacheState : CacheListState := ⟨[], [], 0⟩

def runCacheOps (cfg : GroupConfig) (ops : List CacheOp) : CacheListState :=
  ops.foldl (applyCacheOp cfg) emptyCacheState

/-- Well-formedness of one operation: group ids are unsigned 64-bit
values. -/
def opBound : CacheOp → Prop
  | .insert g => g < u64
  | .removeAt _ => True

/-- The order of group ids along the list required by the spec: ascending
by default, descending under a Desc cascade modifier. -/
def dirRel (desc : Bool) (a b : Nat) : Prop := if desc then b ≤ a else a ≤ b

/-- The structural invariant of the grouped ordered list: the group ids
along the list are weakly monotone in the configured direction (hence
equal ids form contiguous runs, the group sub-lists, and the run ids are
strictly monotone), all ids are 64-bit values, and the group map holds
exactly the ids that occur in the list. -/
def CacheListInv (cfg : GroupConfig) (c : CacheListState) : Prop :=
  c.list.Pairwise (dirRel (cacheDesc cfg)) ∧ (∀ x ∈ c.list, x < u64) ∧
    (∀ g : Nat, (alookup g c.groups).isSome ↔ g ∈ c.list)

/-- The group move performed by flecs_query_rematch (cache.c 945-951):
when the group id of a match changed, the match is removed from and then
re-inserted into the ordered list, with g the new group-by value. -/
def rematch_move_table_node (cfg : GroupConfig) (c : CacheListState)
    (i : Nat) (g : Nat) : CacheListState :=
  (flecs_query_cache_insert_table_node cfg
    (flecs_query_cache_remove_table_node cfg c i).1 g).1

/-! Part 2: the table index and the rematch sweep. -/

/-- One TableEntry (ecs_query_cache_table_t): the chain of match records
of one table, represented by the list of the base.table fields of the
chain (first to last), and the rematch_count stamp.  A freshly allocated
entry is zeroed, so its stamp starts at 0. -/
structure QueryCacheTable where
  matchChain : List Nat
  rematch_count : Nat
deriving DecidableEq, Repr

/-- The table-index part of ecs_query_cache_t: the map from table id to
TableEntry, the rematch_count sweep counter and the monitor generation
last observed. -/
structure CacheTableState where
  tables : List (Nat × QueryCacheTable)
  rematch_count : Nat
  monitor_generation : Nat
deriving DecidableEq, Repr

/-- Models the table-create path of flecs_query_cache_on_event together
with flecs_query_cache_match_table (cache.c 723-769, 1093-1105): the
uncached iterator bound to table t yields n results (n = 0 when the
table does not match); an entry is inserted only when at least one
result was produced, and each result adds one match record with
base.table = t.  The new entry has rematch_count 0 (flecs_bcalloc). -/
def flecs_query_cache_match_table (s : CacheTableState) (t n : Nat) :
    CacheTableState :=
  if n = 0 then s
  else { s with tables := s.tables ++ [(t, ⟨List.replicate n t, 0⟩)] }

/-- Models flecs_query_cache_unmatch_table (cache.c 564-580): remove the
entry of table t (and with it the match chain it owns) from the table
index. -/
def flecs_query_cache_unmatch_table (s : CacheTableState) (t : Nat) :
    CacheTableState :=
  { s with tables := aremove t s.tables }

/-- One per-table step of the rematch iteration (cache.c 919-952) for a
table p.1 yielded with p.2 consecutive results: ensure the entry
(flecs_query_cache_table_ensure), stamp it with the current sweep
counter, and rebuild its chain by reusing records in order, appending
new ones and truncating the stale tail, which nets a chain of p.2 match
records for that table. -/
def rematchEnsureMark (rc : Nat) (tables : List (Nat × QueryCacheTable))
    (p : Nat × Nat) : List (Nat × QueryCacheTable) :=
  match alookup p.1 tables with
  | none => tables ++ [(p.1, ⟨List.replicate p.2 p.1, rc⟩)]
  | some _ =>
      tables.map fun q =>
        if q.1 = p.1 then (q.1, ⟨List.replicate p.2 p.1, rc⟩) else q

/-- Models flecs_query_rematch (cache.c 882-986).  The stream of results
of the uncached iterator is abstracted as the list of (table id, number
of consecutive results) pairs, in yield order.  If the cache monitor
generation already equals the world generation the function returns at
once; otherwise it advances the generation, bumps rematch_count, updates
every yielded table, and finally drops every entry whose stamp was not
refreshed during this sweep.  The ordered-list side effects of rematching
are modelled separately on CacheListState. -/
def flecs_query_rematch (s : CacheTableState) (worldGen : Nat)
    (results : List (Nat × Nat)) : CacheTableState :=
  if s.monitor_generation = worldGen then s
  else
    let rc := s.rematch_count + 1
    let tables1 := results.foldl (rematchEnsureMark rc) s.tables
    ⟨tables1.filter (fun q => q.2.rematch_count == rc), rc, worldGen⟩

/-- One mutation of the table index: a table-create event whose matching
yields n results for a table not yet in the cache (event delivery is
deduplicated, and the event handler skips tables already known), a
table-delete event, or a rematch sweep at some world generation.  The
rematch results have pairwise distinct tables, each with at least one
result (the iterator yields the results of one table consecutively). -/
inductive CacheTableStep : CacheTableState → CacheTableState → Prop where
  | matchNew (s : CacheTableState) (t n : Nat)
      (hnew : alookup t s.tables = none) :
      CacheTableStep s (flecs_query_cache_match_table s t n)
  | unmatch (s : CacheTableState) (t : Nat) :
      CacheTableStep s (flecs_query_cache_unmatch_table s t)
  | rematchStep (s : CacheTableState) (g : Nat) (results : List (Nat × Nat))
      (hk : (results.map Prod.fst).Nodup) (hc : ∀ p ∈ results, 0 < p.2) :
      CacheTableStep s (flecs_query_rematch s g results)

/-- The freshly initialized table index (ecs_map_init on a zeroed cache):
no entries, rematch_count 0, monitor_generation 0.  The initial
population (flecs_query_cache_match_tables) is a sequence of matchNew
steps. -/
def initialTableState : CacheTableState := ⟨[], 0, 0⟩

/-- A table-index state reachable from initialization by table events and
rematch sweeps. -/
def CacheTableReachable (s : CacheTableState) : Prop :=
  Relation.ReflTransGen CacheTableStep initialTableState s

/-- Models flecs_query_cache_entity_count (cache.c 464-476): sum, over
the entries of the table index, of ecs_table_count of the table of the
first match record of the entry.  tcount is the external
ecs_table_count.  The C dereferences qt.first without a null check;
the model returns none when some entry has an empty chain (the
dereference of a null first). -/
def flecs_query_cache_entity_count (tcount : Nat → Nat)
    (s : CacheTableState) : Option Nat :=
  s.tables.foldl
    (fun acc p =>
      match acc, p.2.matchChain.head? with
      | some r, some m => some (r + tcount m)
      | _, _ => none)
    (some 0)

/-- Structural invariant of the table index: keys are pairwise distinct,
every entry has a nonempty match chain whose records all point at the
entry table, and no entry stamp exceeds the cache sweep counter. -/
def TableInv (s : CacheTableState) : Prop :=
  (s.tables.map Prod.fst).Nodup ∧
    ∀ p ∈ s.tables, p.2.matchChain ≠ [] ∧ (∀ m ∈ p.2.matchChain, m = p.1) ∧
      p.2.rematch_count ≤ s.rematch_count

/-! Part 3: signature analysis, component monitors and cache
initialization. -/

/-- The error kinds reported by the embedded operations; an error models
the C reporting the corresponding ecs error and returning a null or
negative result. -/
inductive ErrKind where
  | invalidParameter
  | invalidOperation
  | unsupported
deriving DecidableEq, Repr

/-- The initialization-relevant fields of ecs_query_desc_t: the zero
canary, the MatchEmptyTables and DetectChanges flags, the order_by and
group_by configuration (callbacks modelled by presence booleans) and the
optional query entity. -/
structure QueryDesc where
  canary : Nat
  matchEmptyTables : Bool
  detectChanges : Bool
  orderByCallback : Bool
  orderBy : Nat
  groupByCallback : Bool
  groupBy : Nat
  hasOnGroupCreate : Bool
  hasOnGroupDelete : Bool
  entity : Nat
deriving DecidableEq, Repr

/-- The inputs of flecs_query_cache_init: the descriptor, whether the
world is finalizing, the world default MatchEmptyTables flag, the terms
of the created uncached query, and the number of tables matched by the
initial population (flecs_query_cache_match_tables, an external
iteration). -/
structure InitInput where
  desc : QueryDesc
  worldFini : Bool
  defaultMatchEmptyTables : Bool
  terms : List Term
  matchedTableCount : Nat
deriving DecidableEq, Repr

/-- The observable outcome of a successful flecs_query_cache_init: the
EcsQueryCacheYieldEmptyTables flag, the cascade term index, whether
grouping ended up enabled, the EcsQueryHasRefs flag, the registered
component monitors, the resolved order_by term index, and whether the
EcsEmpty tag was added to the query entity. -/
structure QueryCacheConfig where
  yieldEmptyTables : Bool
  cascadeBy : Nat
  groupingEnabled : Bool
  hasRefs : Bool
  monitors : List CacheId
  orderByTerm : Option Nat
  emptyTagAdded : Bool
deriving DecidableEq, Repr

/-- Models flecs_query_cache_is_term_ref_supported (cache.c 817-828): a
reference is supported when it is not a variable or is a wildcard. -/
def flecs_query_cache_is_term_ref_supported (ref : TermRef) : Bool :=
  !ref.isVariable || ref.isWildcard

/-- The per-term loop of flecs_query_cache_process_signature (cache.c
840-869): check the three references and the inout mode of each term and
record the 1-based index of the cascade term.  i is the index of the
head term, the last argument the cascade index accumulated so far. -/
def processSigGo : List Term → Nat → Nat → Except ErrKind Nat
  | [], _, cascadeBy => .ok cascadeBy
  | t :: rest, i, cascadeBy =>
      if !(flecs_query_cache_is_term_ref_supported t.src || t.matchThis) then
        .error .unsupported
      else if !flecs_query_cache_is_term_ref_supported t.first then
        .error .unsupported
      else if !flecs_query_cache_is_term_ref_supported t.second then
        .error .unsupported
      else if t.inoutFilter then .error .invalidParameter
      else processSigGo rest (i + 1) (if t.src.cascade then i + 1 else cascadeBy)

/-- Models flecs_query_cache_process_signature (cache.c 830-880),
returning the cascade_by index on success. -/
def flecs_query_cache_process_signature (terms : List Term) :
    Except ErrKind Nat :=
  processSigGo terms 0 0

/-- Models flecs_query_cache_has_refs (cache.c 771-784): some term
traverses up or has an entity source. -/
def flecs_query_cache_has_refs (terms : List Term) : Bool :=
  terms.any fun t => t.src.up || t.src.isEntity

/-- The component monitors registered for one term by
flecs_query_cache_for_each_component_monitor (cache.c 800-814): for an
Up term, the pair (trav, Wildcard), additionally (IsA, Wildcard) when
the traversal relation is not IsA, and the term id itself; otherwise the
term id exactly when the source has Self and the term does not match
this. -/
def monitorTermIds (t : Term) : List CacheId :=
  if t.src.up then
    [CacheId.pair t.trav EcsWildcard] ++
      (if t.trav ≠ EcsIsA then [CacheId.pair EcsIsA EcsWildcard] else []) ++
      [t.id]
  else if t.src.self && !t.matchThis then [t.id]
  else []

/-- Models flecs_query_cache_for_each_component_monitor (cache.c
786-815) applied to a registration callback: the list of ids passed to
the callback over all terms, in order. -/
def flecs_query_cache_for_each_component_monitor (terms : List Term) :
    List CacheId :=
  terms.bind monitorTermIds

/-- The monitor set for one term exactly as claim C3 words it: for an Up
term only the traversal pair and conditionally the inheritance wildcard
pair; otherwise the term id exactly when the source is not the this
variable. -/
def monitorsClaimedC3 (t : Term) : List CacheId :=
  if t.src.up then
    [CacheId.pair t.trav EcsWildcard] ++
      (if t.trav ≠ EcsIsA then [CacheId.pair EcsIsA EcsWildcard] else [])
  else if !t.matchThis then [t.id]
  else []

/-- Modelled from the spec: the external ecs_id_is_wildcard test on a
plain entity id used by flecs_query_cache_order_by. -/
def ecs_id_is_wildcard_entity (e : Nat) : Bool := e == EcsWildcard

/-- The order_by term search of flecs_query_cache_order_by (cache.c
1009-1026): the first term whose id equals the order_by component and
whose operator is And. -/
def findOrderByTermGo : List Term → Nat → Nat → Option Nat
  | [], _, _ => none
  | t :: rest, ob, i =>
      if t.id = CacheId.entity ob ∧ t.operIsAnd then some i
      else findOrderByTermGo rest ob (i + 1)

/-- Models flecs_query_cache_order_by (cache.c 990-1043) up to the
sorted-view rebuild: reject a wildcard order_by component, and when a
component is given require a matching And term, failing with the error
reported by the C (an ecs_check for the wildcard, an ecs_err plus error
return for the missing term; the spec files both under
InvalidParameter). -/
def flecs_query_cache_order_by (terms : List Term) (orderBy : Nat) :
    Except ErrKind (Option Nat) :=
  if ecs_id_is_wildcard_entity orderBy then .error .invalidParameter
  else if orderBy ≠ 0 then
    match findOrderByTermGo terms orderBy 0 with
    | some i => .ok (some i)
    | none => .error .invalidParameter
  else .ok none

/-- Models flecs_query_cache_init (cache.c 1208-1372) on the embedded
inputs.  The model follows the order of the C checks: descriptor canary,
world-fini, signature analysis, the cascade versus explicit group_by
check, then the order_by configuration; the nested ecs_query_init and
observer creation are external and assumed to succeed (their terms are
the terms input).  The query_flags computation mirrors lines 1249-1256
and 1278-1283: the descriptor flag or the world default, cleared when an
order_by callback is requested, becomes EcsQueryCacheYieldEmptyTables.
The EcsEmpty tag is added exactly when an entity is bound, no table
matched, and the query has at least one term (lines 1361-1365). -/
def flecs_query_cache_init (inp : InitInput) :
    Except ErrKind QueryCacheConfig :=
  if inp.desc.canary ≠ 0 then .error .invalidParameter
  else if inp.worldFini then .error .invalidOperation
  else
    let matchEmpty0 := inp.desc.matchEmptyTables || inp.defaultMatchEmptyTables
    let matchEmpty := if inp.desc.orderByCallback then false else matchEmpty0
    match flecs_query_cache_process_signature inp.terms with
    | .error e => .error e
    | .ok cascadeBy =>
        if (inp.desc.groupByCallback || (inp.desc.groupBy != 0)) &&
            (cascadeBy != 0) then
          .error .invalidParameter
        else
          match (if inp.desc.orderByCallback then
                   flecs_query_cache_order_by inp.terms inp.desc.orderBy
                 else .ok none) with
          | .error e => .error e
          | .ok obt =>
              .ok { yieldEmptyTables := matchEmpty,
                    cascadeBy := cascadeBy,
                    groupingEnabled := (cascadeBy != 0) ||
                      inp.desc.groupByCallback || (inp.desc.groupBy != 0),
                    hasRefs := flecs_query_cache_has_refs inp.terms,
                    monitors :=
                      flecs_query_cache_for_each_component_monitor inp.terms,
                    orderByTerm := obt,
                    emptyTagAdded := (inp.desc.entity != 0) &&
                      (inp.matchedTableCount == 0) &&
                      (inp.terms.length != 0) }

/-! Concrete inputs used by the per-claim witnesses and
counterexamples. -/

def c1WitnessCfg : GroupConfig := ⟨true, 0, [], false, fun _ => 0, false, 0⟩

def c1WitnessOps : List CacheOp :=
  [.insert 5, .insert 3, .insert 5, .removeAt 1, .insert 7]

def c4WitnessCfg : GroupConfig := ⟨true, 0, [], false, fun _ => 0, false, 3⟩

def c4WitnessState : CacheListState := ⟨[2, 4], [(2, 0), (4, 0)], 6⟩

def c6WitnessCfg : GroupConfig :=
  ⟨true, 0, [], true, fun g => g + 100, true, 0⟩

def c6WitnessState : CacheListState :=
  ⟨[3, 5, 9], [(3, 103), (5, 105), (9, 109)], 7⟩

def c3CexTerm : Term :=
  ⟨defaultTermRef,
   ⟨false, false, false, true, false, false, false⟩,
   defaultTermRef, 5, CacheId.entity 7, false, true, true⟩

def c5WitnessState : CacheTableState := ⟨[(11, ⟨[11], 1⟩)], 1, 5⟩

def c7CexInput : InitInput :=
  ⟨⟨0, false, false, false, 0, false, 0, false, false, 7⟩,
   false, false, [], 0⟩

/-- A plain self term on component 3 with an And operator, used by the
init witnesses. -/
def plainTerm3 : Term :=
  ⟨defaultTermRef,
   ⟨false, false, true, false, false, false, false⟩,
   defaultTermRef, 0, CacheId.entity 3, false, true, true⟩

/-- A cascade term (source has Self, Up and Cascade) on component 4. -/
def cascadeTerm4 : Term :=
  ⟨defaultTermRef,
   ⟨false, false, true, true, true, false, false⟩,
   defaultTermRef, 6, CacheId.entity 4, false, true, true⟩

def c7WitnessResult : QueryCacheConfig :=
  ⟨false, 0, false, false, [], none, true⟩

def c7WitnessCfg : GroupConfig := ⟨false, 0, [], false, fun _ => 0, false, 4⟩

def c8WitnessResult : QueryCacheConfig :=
  ⟨false, 0, false, false, [], some 0, false⟩

def c7WitnessInput : InitInput :=
  ⟨⟨0, false, false, false, 0, false, 0, false, false, 9⟩,
   false, false, [plainTerm3], 0⟩

def c8WitnessInput : InitInput :=
  ⟨⟨0, true, false, true, 3, false, 0, false, false, 0⟩,
   false, false, [plainTerm3], 2⟩

def c9WitnessInput : InitInput :=
  ⟨⟨0, false, false, false, 0, true, 0, false, false, 0⟩,
   false, false, [plainTerm3, cascadeTerm4], 0⟩

/-! Arithmetic facts about unsigned 64-bit subtraction. -/

theorem usub_no_wrap {a b : Nat} (hb : b ≤ a) (ha : a < u64) :
    usub a b = a - b := by
  have h1 : a + u64 - b = (a - b) + u64 := by omega
  have h2 : a - b < u64 := by omega
  rw [usub, h1, Nat.add_mod_right, Nat.mod_eq_of_lt h2]

theorem usub_wrap {a b : Nat} (hab : a < b) (hb : b < u64) :
    usub a b = a + u64 - b := by
  have h2 : a + u64 - b < u64 := by omega
  rw [usub, Nat.mod_eq_of_lt h2]

theorem usub_lt_usub_left {g a c : Nat} (hag : a < g) (hcg : c < g)
    (hg : g < u64) : usub g a < usub g c ↔ c < a := by
  rw [usub_no_wrap (Nat.le_of_lt hag) hg, usub_no_wrap (Nat.le_of_lt hcg) hg]
  omega

theorem usub_wrap_lt_usub_wrap {g a c : Nat} (hag : g < a) (hcg : g < c)
    (ha : a < u64) (hc : c < u64) : usub g c < usub g a ↔ a < c := by
  rw [usub_wrap hag ha, usub_wrap hcg hc]
  omega

/-! List decomposition lemmas used to reason about the removal of the
match at a given position. -/

theorem take_get_drop_eq (l : List Nat) :
    ∀ (i : Nat) (h : i < l.length),
      l.take i ++ l.get ⟨i, h⟩ :: l.drop (i + 1) = l := by
  induction l with
  | nil => intro i h; simp at h
  | cons a rest ih =>
      intro i h
      cases i with
      | zero => simp
      | succ j =>
          simp only [List.take_succ_cons, List.get, List.drop_succ_cons,
            List.cons_append, List.cons.injEq, true_and]
          exact ih j (by simpa using h)

theorem eraseIdx_eq_take_append_drop (l : List Nat) :
    ∀ (i : Nat), i < l.length → l.eraseIdx i = l.take i ++ l.drop (i + 1) := by
  induction l with
  | nil => intro i h; simp at h
  | cons a rest ih =>
      intro i h
      cases i with
      | zero => simp [List.eraseIdx]
      | succ j =>
          simp only [List.eraseIdx, List.take_succ_cons, List.drop_succ_cons,
            List.cons_append, List.cons.injEq, true_and]
          exact ih j (by simpa using h)

theorem length_take_of_lt {l : List Nat} {i : Nat} (h : i < l.length) :
    (l.take i).length = i := by
  simp only [List.length_take]
  omega

/-! Facts about insertAfterLast. -/

theorem mem_insertAfterLast {t x : Nat} :
    ∀ {l : List Nat}, t ∈ l →
      ∀ {y : Nat}, (y ∈ insertAfterLast t x l ↔ y = x ∨ y ∈ l) := by
  intro l
  induction l with
  | nil => intro h; simp at h
  | cons a rest ih =>
      intro h y
      by_cases hm : t ∈ rest
      · simp only [insertAfterLast, if_pos hm, List.mem_cons, ih hm]
        tauto
      · have ha : a = t := by
          rcases List.mem_cons.mp h with h1 | h1
          · exact h1.symm
          · exact absurd h1 hm
        simp only [insertAfterLast, if_neg hm, if_pos ha, List.mem_cons]
        tauto

theorem pairwise_insertAfterLast {r : Nat → Nat → Prop}
    (htr : ∀ a b c, r a b → r b c → r a c) {t x : Nat} :
    ∀ {l : List Nat}, l.Pairwise r → t ∈ l → r t x →
      (∀ y ∈ l, y ≠ t → r t y → r x y) →
      (insertAfterLast t x l).Pairwise r := by
  intro l
  induction l with
  | nil => intro _ h; simp at h
  | cons a rest ih =>
      intro hp hm htx hafter
      rcases List.pairwise_cons.mp hp with ⟨hhead, hrest⟩
      by_cases hmr : t ∈ rest
      · simp only [insertAfterLast, if_pos hmr]
        refine List.pairwise_cons.mpr ⟨?_, ?_⟩
        · intro y hy
          rcases (mem_insertAfterLast hmr).mp hy with rfl | hy2
          · exact htr a t y (hhead t hmr) htx
          · exact hhead y hy2
        · exact ih hrest hmr htx
            (fun y hy hne hty => hafter y (List.mem_cons_of_mem a hy) hne hty)
      · have ha : a = t := by
          rcases List.mem_cons.mp hm with h1 | h1
          · exact h1.symm
          · exact absurd h1 hmr
        subst ha
        simp only [insertAfterLast, if_neg hmr, if_pos rfl]
        refine List.pairwise_cons.mpr ⟨?_, List.pairwise_cons.mpr ⟨?_, hrest⟩⟩
        · intro y hy
          rcases List.mem_cons.mp hy with rfl | hy2
          · exact htx
          · exact hhead y hy2
        · intro y hy
          have hya : y ≠ a := fun h => hmr (h ▸ hy)
          exact hafter y (List.mem_cons_of_mem a hy) hya (hhead y hy)

/-! Facts about association lists. -/

theorem alookup_append_single {β : Type} (m : List (Nat × β)) (g : Nat)
    (v : β) (k : Nat) :
    alookup k (m ++ [(g, v)]) =
      match alookup k m with
      | some w => some w
      | none => if g = k then some v else none := by
  induction m with
  | nil => simp [alookup]
  | cons p rest ih =>
      by_cases hp : p.1 = k
      · simp [alookup, hp]
      · simp [alookup, hp, ih]

theorem alookup_aremove {β : Type} (m : List (Nat × β)) (g k : Nat) :
    alookup k (aremove g m) = if k = g then none else alookup k m := by
  induction m with
  | nil => simp [alookup, aremove]
  | cons p rest ih =>
      by_cases hpg : p.1 = g
      · have hb : (p.1 != g) = false := by simp [hpg]
        have hstep : aremove g (p :: rest) = aremove g rest := by
          simp [aremove, List.filter_cons, hb]
        rw [hstep, ih]
        by_cases hkg : k = g
        · simp [hkg]
        · have hpk : p.1 ≠ k := by rw [hpg]; exact fun h => hkg h.symm
          simp [alookup, hpk, hkg]
      · have hb : (p.1 != g) = true := by simp [hpg]
        have hstep : aremove g (p :: rest) = p :: aremove g rest := by
          simp [aremove, List.filter_cons, hb]
        rw [hstep]
        by_cases hpk : p.1 = k
        · have hkg : ¬ k = g := fun h => hpg (hpk.trans h)
          simp [alookup, hpk, hkg]
        · simp [alookup, hpk, ih]

/-! Characterization of the closest-group scan.  In ascending mode the
scan returns the largest group id smaller than the new id; in descending
mode the smallest group id larger than the new id.  The unsigned
subtraction never wraps in ascending mode (all candidates are below the
new id) and wraps uniformly in descending mode, where a larger candidate
yields a smaller wrapped distance. -/

theorem findClosest_asc (g : Nat) (hg : g < u64) :
    ∀ (l : List Nat) (acc : Option Nat), (∀ c0, acc = some c0 → c0 < g) →
      (l.foldl (findClosestStep false g) acc = none →
        acc = none ∧ ∀ x ∈ l, ¬ x < g) ∧
      (∀ c, l.foldl (findClosestStep false g) acc = some c →
        c < g ∧ (acc = some c ∨ c ∈ l) ∧ (∀ x ∈ l, x < g → x ≤ c) ∧
        (∀ c0, acc = some c0 → c0 ≤ c)) := by
  intro l
  induction l with
  | nil =>
      intro acc hacc
      refine ⟨fun h => ⟨h, by simp⟩, fun c h => ?_⟩
      refine ⟨hacc c h, Or.inl h, by simp, fun c0 h0 => ?_⟩
      rw [h0] at h
      cases h
      exact Nat.le_refl _
  | cons a rest ih =>
      intro acc hacc
      by_cases hga : g ≤ a
      · have hstep : findClosestStep false g acc a = acc := by
          simp [findClosestStep, hga]
        rw [List.foldl_cons, hstep]
        obtain ⟨ihn, ihs⟩ := ih acc hacc
        refine ⟨fun h => ?_, fun c h => ?_⟩
        · obtain ⟨h1, h2⟩ := ihn h
          refine ⟨h1, fun x hx => ?_⟩
          rcases List.mem_cons.mp hx with rfl | hx2
          · omega
          · exact h2 x hx2
        · obtain ⟨hc1, hc2, hc3, hc4⟩ := ihs c h
          refine ⟨hc1, ?_, fun x hx hxg => ?_, hc4⟩
          · rcases hc2 with h' | h'
            · exact Or.inl h'
            · exact Or.inr (List.mem_cons_of_mem a h')
          · rcases List.mem_cons.mp hx with rfl | hx2
            · omega
            · exact hc3 x hx2 hxg
      · have hag : a < g := Nat.lt_of_not_le hga
        cases acc with
        | none =>
            have hstep : findClosestStep false g none a = some a := by
              simp [findClosestStep, hga]
            rw [List.foldl_cons, hstep]
            have hacc2 : ∀ c0, (some a : Option Nat) = some c0 → c0 < g := by
              intro c0 h0
              cases h0
              exact hag
            obtain ⟨ihn, ihs⟩ := ih (some a) hacc2
            refine ⟨fun h => absurd (ihn h).1 (by simp), fun c h => ?_⟩
            obtain ⟨hc1, hc2, hc3, hc4⟩ := ihs c h
            have hac : a ≤ c := hc4 a rfl
            refine ⟨hc1, ?_, fun x hx hxg => ?_, by simp⟩
            · rcases hc2 with h' | h'
              · cases h'
                exact Or.inr (List.mem_cons_self a rest)
              · exact Or.inr (List.mem_cons_of_mem a h')
            · rcases List.mem_cons.mp hx with rfl | hx2
              · exact hac
              · exact hc3 x hx2 hxg
        | some c0 =>
            have hc0g : c0 < g := hacc c0 rfl
            have hcomp : usub g a < usub g c0 ↔ c0 < a :=
              usub_lt_usub_left hag hc0g hg
            by_cases hlt : c0 < a
            · have hstep : findClosestStep false g (some c0) a = some a := by
                have h1 : usub g a < usub g c0 := hcomp.mpr hlt
                simp [findClosestStep, hga, h1]
              rw [List.foldl_cons, hstep]
              have hacc2 : ∀ c1, (some a : Option Nat) = some c1 → c1 < g := by
                intro c1 h1
                cases h1
                exact hag
              obtain ⟨ihn, ihs⟩ := ih (some a) hacc2
              refine ⟨fun h => absurd (ihn h).1 (by simp), fun c h => ?_⟩
              obtain ⟨hc1, hc2, hc3, hc4⟩ := ihs c h
              have hac : a ≤ c := hc4 a rfl
              refine ⟨hc1, ?_, fun x hx hxg => ?_, fun c1 h1 => ?_⟩
              · rcases hc2 with h' | h'
                · cases h'
                  exact Or.inr (List.mem_cons_self a rest)
                · exact Or.inr (List.mem_cons_of_mem a h')
              · rcases List.mem_cons.mp hx with rfl | hx2
                · exact hac
                · exact hc3 x hx2 hxg
              · cases h1
                omega
            · have hstep : findClosestStep false g (some c0) a = some c0 := by
                have h1 : ¬ usub g a < usub g c0 := fun h => hlt (hcomp.mp h)
                simp [findClosestStep, hga, h1]
              rw [List.foldl_cons, hstep]
              have hacc2 : ∀ c1, (some c0 : Option Nat) = some c1 → c1 < g := by
                intro c1 h1
                cases h1
                exact hc0g
              obtain ⟨ihn, ihs⟩ := ih (some c0) hacc2
              refine ⟨fun h => absurd (ihn h).1 (by simp), fun c h => ?_⟩
              obtain ⟨hc1, hc2, hc3, hc4⟩ := ihs c h
              have hc0c : c0 ≤ c := hc4 c0 rfl
              refine ⟨hc1, ?_, fun x hx hxg => ?_, fun c1 h1 => ?_⟩
              · rcases hc2 with h' | h'
                · exact Or.inl h'
                · exact Or.inr (List.mem_cons_of_mem a h')
              · rcases List.mem_cons.mp hx with rfl | hx2
                · omega
                · exact hc3 x hx2 hxg
              · cases h1
                exact hc0c

theorem findClosest_desc (g : Nat) :
    ∀ (l : List Nat), (∀ x ∈ l, x < u64) → ∀ (acc : Option Nat),
      (∀ c0, acc = some c0 → g < c0 ∧ c0 < u64) →
      (l.foldl (findClosestStep true g) acc = none →
        acc = none ∧ ∀ x ∈ l, ¬ g < x) ∧
      (∀ c, l.foldl (findClosestStep true g) acc = some c →
        g < c ∧ c < u64 ∧ (acc = some c ∨ c ∈ l) ∧
        (∀ x ∈ l, g < x → c ≤ x) ∧
        (∀ c0, acc = some c0 → c ≤ c0)) := by
  intro l
  induction l with
  | nil =>
      intro _ acc hacc
      refine ⟨fun h => ⟨h, by simp⟩, fun c h => ?_⟩
      refine ⟨(hacc c h).1, (hacc c h).2, Or.inl h, by simp, fun c0 h0 => ?_⟩
      rw [h0] at h
      cases h
      exact Nat.le_refl _
  | cons a rest ih =>
      intro hb acc hacc
      have hbr : ∀ x ∈ rest, x < u64 :=
        fun x hx => hb x (List.mem_cons_of_mem a hx)
      have hba : a < u64 := hb a (List.mem_cons_self a rest)
      by_cases hga : a ≤ g
      · have hstep : findClosestStep true g acc a = acc := by
          simp [findClosestStep, hga]
        rw [List.foldl_cons, hstep]
        obtain ⟨ihn, ihs⟩ := ih hbr acc hacc
        refine ⟨fun h => ?_, fun c h => ?_⟩
        · obtain ⟨h1, h2⟩ := ihn h
          refine ⟨h1, fun x hx => ?_⟩
          rcases List.mem_cons.mp hx with rfl | hx2
          · omega
          · exact h2 x hx2
        · obtain ⟨hc1, hc1b, hc2, hc3, hc4⟩ := ihs c h
          refine ⟨hc1, hc1b, ?_, fun x hx hxg => ?_, hc4⟩
          · rcases hc2 with h' | h'
            · exact Or.inl h'
            · exact Or.inr (List.mem_cons_of_mem a h')
          · rcases List.mem_cons.mp hx with rfl | hx2
            · omega
            · exact hc3 x hx2 hxg
      · have hag : g < a := Nat.lt_of_not_le hga
        cases acc with
        | none =>
            have hstep : findClosestStep true g none a = some a := by
              simp [findClosestStep, hga]
            rw [List.foldl_cons, hstep]
            have hacc2 : ∀ c0, (some a : Option Nat) = some c0 →
                g < c0 ∧ c0 < u64 := by
              intro c0 h0
              cases h0
              exact ⟨hag, hba⟩
            obtain ⟨ihn, ihs⟩ := ih hbr (some a) hacc2
            refine ⟨fun h => absurd (ihn h).1 (by simp), fun c h => ?_⟩
            obtain ⟨hc1, hc1b, hc2, hc3, hc4⟩ := ihs c h
            have hac : c ≤ a := hc4 a rfl
            refine ⟨hc1, hc1b, ?_, fun x hx hxg => ?_, by simp⟩
            · rcases hc2 with h' | h'
              · cases h'
                exact Or.inr (List.mem_cons_self a rest)
              · exact Or.inr (List.mem_cons_of_mem a h')
            · rcases List.mem_cons.mp hx with rfl | hx2
              · exact hac
              · exact hc3 x hx2 hxg
        | some c0 =>
            obtain ⟨hc0g, hc0b⟩ := hacc c0 rfl
            have hcomp : usub g c0 < usub g a ↔ a < c0 :=
              usub_wrap_lt_usub_wrap hag hc0g hba hc0b
            by_cases hlt : a < c0
            · have hstep : findClosestStep true g (some c0) a = some a := by
                have h1 : usub g c0 < usub g a := hcomp.mpr hlt
                simp [findClosestStep, hga, h1]
              rw [List.foldl_cons, hstep]
              have hacc2 : ∀ c1, (some a : Option Nat) = some c1 →
                  g < c1 ∧ c1 < u64 := by
                intro c1 h1
                cases h1
                exact ⟨hag, hba⟩
              obtain ⟨ihn, ihs⟩ := ih hbr (some a) hacc2
              refine ⟨fun h => absurd (ihn h).1 (by simp), fun c h => ?_⟩
              obtain ⟨hc1, hc1b, hc2, hc3, hc4⟩ := ihs c h
              have hac : c ≤ a := hc4 a rfl
              refine ⟨hc1, hc1b, ?_, fun x hx hxg => ?_, fun c1 h1 => ?_⟩
              · rcases hc2 with h' | h'
                · cases h'
                  exact Or.inr (List.mem_cons_self a rest)
                · exact Or.inr (List.mem_cons_of_mem a h')
              · rcases List.mem_cons.mp hx with rfl | hx2
                · exact hac
                · exact hc3 x hx2 hxg
              · cases h1
                omega
            · have hstep : findClosestStep true g (some c0) a = some c0 := by
                have h1 : ¬ usub g c0 < usub g a := fun h => hlt (hcomp.mp h)
                simp [findClosestStep, hga, h1]
              rw [List.foldl_cons, hstep]
              have hacc2 : ∀ c1, (some c0 : Option Nat) = some c1 →
                  g < c1 ∧ c1 < u64 := by
                intro c1 h1
                cases h1
                exact ⟨hc0g, hc0b⟩
              obtain ⟨ihn, ihs⟩ := ih hbr (some c0) hacc2
              refine ⟨fun h => absurd (ihn h).1 (by simp), fun c h => ?_⟩
              obtain ⟨hc1, hc1b, hc2, hc3, hc4⟩ := ihs c h
              have hc0c : c ≤ c0 := hc4 c0 rfl
              refine ⟨hc1, hc1b, ?_, fun x hx hxg => ?_, fun c1 h1 => ?_⟩
              · rcases hc2 with h' | h'
                · exact Or.inl h'
                · exact Or.inr (List.mem_cons_of_mem a h')
              · rcases List.mem_cons.mp hx with rfl | hx2
                · omega
                · exact hc3 x hx2 hxg
              · cases h1
                exact hc0c

/-! Preservation of the list invariant by insertion. -/

theorem dirRel_trans (d : Bool) :
    ∀ a b c, dirRel d a b → dirRel d b c → dirRel d a c := by
  intro a b c h1 h2
  cases d <;> simp [dirRel] at * <;> omega

theorem dirRel_refl (d : Bool) (a : Nat) : dirRel d a a := by
  cases d <;> simp [dirRel]

theorem insert_grouping_eq (cfg : GroupConfig) (c : CacheListState) (g : Nat)
    (hgr : cfg.groupingEnabled = true) :
    (flecs_query_cache_insert_table_node cfg c g).1 =
      ⟨(if g ∈ c.list then insertAfterLast g g c.list
        else
          match flecs_query_cache_find_group_insertion_node (cacheDesc cfg)
              c.list g with
          | none => g :: c.list
          | some closest => insertAfterLast closest g c.list),
       flecs_query_cache_ensure_group cfg c.groups g, c.matchCount + 1⟩ := by
  simp [flecs_query_cache_insert_table_node, hgr]

theorem insert_nongrouping_eq (cfg : GroupConfig) (c : CacheListState)
    (g : Nat) (hgr : cfg.groupingEnabled = false) :
    (flecs_query_cache_insert_table_node cfg c g).1 =
      ⟨c.list ++ [0], c.groups, c.matchCount + 1⟩ := by
  simp [flecs_query_cache_insert_table_node, hgr]

theorem insert_emptyRemoved_eq (cfg : GroupConfig) (c : CacheListState)
    (g : Nat) :
    (flecs_query_cache_insert_table_node cfg c g).2 =
      (c.list.isEmpty && (cfg.entity != 0)) := by
  cases hgr : cfg.groupingEnabled <;>
    simp [flecs_query_cache_insert_table_node, hgr]

theorem ensure_group_mapiff (cfg : GroupConfig) (groups : List (Nat × Nat))
    (l newlist : List Nat) (g : Nat)
    (hm : ∀ g', (alookup g' groups).isSome ↔ g' ∈ l)
    (hnew : ∀ y, y ∈ newlist ↔ y = g ∨ y ∈ l) :
    ∀ g', (alookup g' (flecs_query_cache_ensure_group cfg groups g)).isSome ↔
      g' ∈ newlist := by
  intro g'
  rw [hnew g']
  cases hg : alookup g groups with
  | some v =>
      have hens : flecs_query_cache_ensure_group cfg groups g = groups := by
        simp [flecs_query_cache_ensure_group, hg]
      rw [hens, hm g']
      constructor
      · exact Or.inr
      · rintro (rfl | h)
        · exact (hm g').mp (by simp [hg])
        · exact h
  | none =>
      have hens : flecs_query_cache_ensure_group cfg groups g =
          groups ++ [(g, if cfg.hasOnGroupCreate then cfg.onGroupCreate g
            else 0)] := by
        simp [flecs_query_cache_ensure_group, hg]
      rw [hens, alookup_append_single]
      cases hg' : alookup g' groups with
      | some w =>
          simp only [Option.isSome_some, true_iff]
          exact Or.inr ((hm g').mp (by simp [hg']))
      | none =>
          have hnl : g' ∉ l := by
            intro h
            have := (hm g').mpr h
            rw [hg'] at this
            simp at this
          by_cases hgg : g = g'
          · subst hgg
            simp
          · have hne : g' ≠ g := fun h => hgg h.symm
            simp [hgg, hne, hnl]

theorem inv_insert (cfg : GroupConfig) (hgr : cfg.groupingEnabled = true)
    (c : CacheListState) (g : Nat) (hInv : CacheListInv cfg c)
    (hgb : g < u64) :
    CacheListInv cfg (flecs_query_cache_insert_table_node cfg c g).1 := by
  obtain ⟨hp, hb, hm⟩ := hInv
  rw [insert_grouping_eq cfg c g hgr]
  by_cases hmem : g ∈ c.list
  · rw [if_pos hmem]
    have hmm : ∀ {y : Nat}, y ∈ insertAfterLast g g c.list ↔
        y = g ∨ y ∈ c.list := mem_insertAfterLast hmem
    refine ⟨?_, ?_, ?_⟩
    · exact pairwise_insertAfterLast (dirRel_trans (cacheDesc cfg)) hp hmem
        (dirRel_refl _ g) (fun y _ _ h => h)
    · intro x hx
      rcases hmm.mp hx with rfl | hx2
      · exact hgb
      · exact hb x hx2
    · exact ensure_group_mapiff cfg c.groups c.list _ g hm (fun y => hmm)
  · rw [if_neg hmem]
    cases hd : cacheDesc cfg with
    | false =>
        rw [hd] at hp
        cases hfind : flecs_query_cache_find_group_insertion_node false
            c.list g with
        | none =>
            simp only [flecs_query_cache_find_group_insertion_node] at hfind
            obtain ⟨hnone, _⟩ := findClosest_asc g hgb c.list none (by simp)
            have hall := (hnone hfind).2
            have hnew : ∀ y, y ∈ g :: c.list ↔ y = g ∨ y ∈ c.list :=
              fun y => List.mem_cons
            refine ⟨?_, ?_, ensure_group_mapiff cfg c.groups c.list _ g hm hnew⟩
            · rw [hd]
              show List.Pairwise (dirRel false) (g :: c.list)
              refine List.pairwise_cons.mpr ⟨fun y hy => ?_, hp⟩
              have := hall y hy
              simp [dirRel]
              omega
            · intro x hx
              rcases List.mem_cons.mp hx with rfl | hx2
              · exact hgb
              · exact hb x hx2
        | some closest =>
            simp only [flecs_query_cache_find_group_insertion_node] at hfind
            obtain ⟨_, hsome⟩ := findClosest_asc g hgb c.list none (by simp)
            obtain ⟨hc1, hc2, hc3, _⟩ := hsome closest hfind
            have hcmem : closest ∈ c.list := hc2.resolve_left (by simp)
            have hmm : ∀ {y : Nat}, y ∈ insertAfterLast closest g c.list ↔
                y = g ∨ y ∈ c.list := mem_insertAfterLast hcmem
            refine ⟨?_, ?_,
              ensure_group_mapiff cfg c.groups c.list _ g hm (fun y => hmm)⟩
            · rw [hd]
              show List.Pairwise (dirRel false) (insertAfterLast closest g c.list)
              refine pairwise_insertAfterLast (dirRel_trans false) hp hcmem ?_ ?_
              · simp [dirRel]
                omega
              · intro y hy hne hcy
                simp [dirRel] at hcy ⊢
                by_cases hyg : y < g
                · have := hc3 y hy hyg
                  omega
                · omega
            · intro x hx
              rcases hmm.mp hx with rfl | hx2
              · exact hgb
              · exact hb x hx2
    | true =>
        rw [hd] at hp
        cases hfind : flecs_query_cache_find_group_insertion_node true
            c.list g with
        | none =>
            simp only [flecs_query_cache_find_group_insertion_node] at hfind
            obtain ⟨hnone, _⟩ := findClosest_desc g c.list hb none (by simp)
            have hall := (hnone hfind).2
            have hnew : ∀ y, y ∈ g :: c.list ↔ y = g ∨ y ∈ c.list :=
              fun y => List.mem_cons
            refine ⟨?_, ?_, ensure_group_mapiff cfg c.groups c.list _ g hm hnew⟩
            · rw [hd]
              show List.Pairwise (dirRel true) (g :: c.list)
              refine List.pairwise_cons.mpr ⟨fun y hy => ?_, hp⟩
              have := hall y hy
              simp [dirRel]
              omega
            · intro x hx
              rcases List.mem_cons.mp hx with rfl | hx2
              · exact hgb
              · exact hb x hx2
        | some closest =>
            simp only [flecs_query_cache_find_group_insertion_node] at hfind
            obtain ⟨_, hsome⟩ := findClosest_desc g c.list hb none (by simp)
            obtain ⟨hc1, hc1b, hc2, hc3, _⟩ := hsome closest hfind
            have hcmem : closest ∈ c.list := hc2.resolve_left (by simp)
            have hmm : ∀ {y : Nat}, y ∈ insertAfterLast closest g c.list ↔
                y = g ∨ y ∈ c.list := mem_insertAfterLast hcmem
            refine ⟨?_, ?_,
              ensure_group_mapiff cfg c.groups c.list _ g hm (fun y => hmm)⟩
            · rw [hd]
              show List.Pairwise (dirRel true) (insertAfterLast closest g c.list)
              refine pairwise_insertAfterLast (dirRel_trans true) hp hcmem ?_ ?_
              · simp [dirRel]
                omega
              · intro y hy hne hcy
                simp [dirRel] at hcy ⊢
                by_cases hyg : g < y
                · have := hc3 y hy hyg
                  omega
                · omega
            · intro x hx
              rcases hmm.mp hx with rfl | hx2
              · exact hgb
              · exact hb x hx2

/-! Preservation of the list invariant by removal. -/

theorem dirRel_antisymm (d : Bool) {a b : Nat} (h1 : dirRel d a b)
    (h2 : dirRel d b a) : a = b := by
  cases d <;> simp [dirRel] at h1 h2 <;> omega

theorem remove_oob (cfg : GroupConfig) (c : CacheListState) (i : Nat)
    (h : ¬ i < c.list.length) :
    flecs_query_cache_remove_table_node cfg c i = (c, []) := by
  simp [flecs_query_cache_remove_table_node, h]

theorem remove_nongrouping (cfg : GroupConfig) (c : CacheListState) (i : Nat)
    (h : i < c.list.length) (hgr : cfg.groupingEnabled = false) :
    flecs_query_cache_remove_table_node cfg c i =
      (⟨c.list.eraseIdx i, c.groups, c.matchCount + 1⟩, []) := by
  simp [flecs_query_cache_remove_table_node, h, hgr]

theorem remove_unlisted (cfg : GroupConfig) (c : CacheListState) (i : Nat)
    (h : i < c.list.length) (hgr : cfg.groupingEnabled = true)
    (hlk : alookup (c.list.get ⟨i, h⟩) c.groups = none) :
    flecs_query_cache_remove_table_node cfg c i = (c, []) := by
  have hlk2 : alookup c.list[i] c.groups = none := hlk
  simp [flecs_query_cache_remove_table_node, h, hgr, hlk2]

theorem remove_grouping_eq (cfg : GroupConfig) (c : CacheListState) (i : Nat)
    (h : i < c.list.length) (hgr : cfg.groupingEnabled = true)
    (hlk : alookup (c.list.get ⟨i, h⟩) c.groups ≠ none) :
    flecs_query_cache_remove_table_node cfg c i =
      (if removedGroupFlag (c.list.get ⟨i, h⟩)
          (if i = 0 then none else c.list.get? (i - 1))
          (c.list.get? (i + 1)) then
        (⟨c.list.eraseIdx i, aremove (c.list.get ⟨i, h⟩) c.groups,
          c.matchCount + 1⟩,
         if cfg.hasOnGroupDelete then
           (match alookup (c.list.get ⟨i, h⟩) c.groups with
            | some ctx => [(c.list.get ⟨i, h⟩, ctx)]
            | none => []) else [])
      else
        (⟨c.list.eraseIdx i, c.groups, c.matchCount + 1⟩, [])) := by
  have hlk2 : ¬ alookup c.list[i] c.groups = none := hlk
  simp [flecs_query_cache_remove_table_node, h, hgr, hlk2]

theorem removedGroupFlag_true {g : Nat} {prev0 next0 : Option Nat}
    (hprev : ∀ x, prev0 = some x → x ≠ g)
    (hnext : ∀ x, next0 = some x → x ≠ g) :
    removedGroupFlag g prev0 next0 = true := by
  cases prev0 with
  | none =>
      cases next0 with
      | none => rfl
      | some b =>
          have hb := hnext b rfl
          simp [removedGroupFlag, hb]
  | some a =>
      have ha := hprev a rfl
      cases next0 with
      | none => simp [removedGroupFlag, ha]
      | some b =>
          have hb := hnext b rfl
          simp [removedGroupFlag, ha, hb]

theorem removedGroupFlag_false {g : Nat} {prev0 next0 : Option Nat}
    (h : prev0 = some g ∨ next0 = some g) :
    removedGroupFlag g prev0 next0 = false := by
  rcases h with rfl | rfl
  · cases next0 with
    | none => simp [removedGroupFlag]
    | some b => by_cases hbg : b = g <;> simp [removedGroupFlag, hbg]
  · cases prev0 with
    | none => simp [removedGroupFlag]
    | some a => by_cases hag : a = g <;> simp [removedGroupFlag, hag]

theorem get_take_eq (l : List Nat) (i j : Nat) (hj : j < i)
    (hA : j < (l.take i).length) (hl : j < l.length) :
    (l.take i).get ⟨j, hA⟩ = l.get ⟨j, hl⟩ := by
  have h1 : (l.take i).get? j = l.get? j := List.get?_take hj
  rw [List.get?_eq_get hA, List.get?_eq_get hl] at h1
  exact Option.some.inj h1

theorem get_drop_eq (l : List Nat) (n j : Nat) (hB : j < (l.drop n).length)
    (hl : n + j < l.length) :
    (l.drop n).get ⟨j, hB⟩ = l.get ⟨n + j, hl⟩ := by
  have h1 : (l.drop n).get? j = l.get? (n + j) := List.get?_drop l n j
  rw [List.get?_eq_get hB, List.get?_eq_get hl] at h1
  exact Option.some.inj h1

theorem get_mem_take (l : List Nat) (i j : Nat) (hj : j < i)
    (hl : j < l.length) : l.get ⟨j, hl⟩ ∈ l.take i := by
  have hA : j < (l.take i).length := by
    simp [List.length_take]
    omega
  rw [← get_take_eq l i j hj hA hl]
  exact (l.take i).get_mem j hA

theorem get_mem_drop (l : List Nat) (n j : Nat) (hn : n ≤ j)
    (hl : j < l.length) : l.get ⟨j, hl⟩ ∈ l.drop n := by
  have h1 : (l.drop n).get? (j - n) = l.get? (n + (j - n)) :=
    List.get?_drop l n (j - n)
  have hnj : n + (j - n) = j := by omega
  rw [hnj, List.get?_eq_get hl] at h1
  exact List.get?_mem h1

/-- In a list whose group ids are weakly monotone, a second occurrence of
the id of the element at position i forces one of the immediate
neighbors of position i to carry the same id (equal ids are
contiguous). -/
theorem sorted_dup_neighbor (d : Bool) (l : List Nat)
    (hp : l.Pairwise (dirRel d)) (i : Nat) (h : i < l.length)
    (hdup : l.get ⟨i, h⟩ ∈ l.take i ∨ l.get ⟨i, h⟩ ∈ l.drop (i + 1)) :
    (0 < i ∧ l.get? (i - 1) = some (l.get ⟨i, h⟩)) ∨
      l.get? (i + 1) = some (l.get ⟨i, h⟩) := by
  have hget := List.pairwise_iff_get.mp hp
  rcases hdup with hA | hB
  · left
    obtain ⟨⟨j, hjA⟩, hje⟩ := List.get_of_mem hA
    have hji : j < i := by
      have := hjA
      simp [List.length_take] at this
      omega
    have hi0 : 0 < i := by omega
    have hjl : j < l.length := by omega
    have hjeq : l.get ⟨j, hjl⟩ = l.get ⟨i, h⟩ := by
      rw [← get_take_eq l i j hji hjA hjl]
      exact hje
    have hil : i - 1 < l.length := by omega
    have heqpred : l.get ⟨i - 1, hil⟩ = l.get ⟨i, h⟩ := by
      by_cases hji1 : j = i - 1
      · subst hji1
        exact hjeq
      · have h1 : dirRel d (l.get ⟨j, hjl⟩) (l.get ⟨i - 1, hil⟩) :=
          hget ⟨j, hjl⟩ ⟨i - 1, hil⟩ (Fin.mk_lt_mk.mpr (by omega))
        have h2 : dirRel d (l.get ⟨i - 1, hil⟩) (l.get ⟨i, h⟩) :=
          hget ⟨i - 1, hil⟩ ⟨i, h⟩ (Fin.mk_lt_mk.mpr (by omega))
        rw [hjeq] at h1
        exact dirRel_antisymm d h2 (by exact h1) |>.symm ▸ rfl
    refine ⟨hi0, ?_⟩
    rw [List.get?_eq_get hil, heqpred]
  · right
    obtain ⟨⟨j, hjB⟩, hje⟩ := List.get_of_mem hB
    have hjl : i + 1 + j < l.length := by
      have := hjB
      rw [List.length_drop] at this
      omega
    have hjeq : l.get ⟨i + 1 + j, hjl⟩ = l.get ⟨i, h⟩ := by
      rw [← get_drop_eq l (i + 1) j hjB hjl]
      exact hje
    have hil : i + 1 < l.length := by omega
    have heqsucc : l.get ⟨i + 1, hil⟩ = l.get ⟨i, h⟩ := by
      by_cases hj0 : j = 0
      · subst hj0
        exact hjeq
      · have h1 : dirRel d (l.get ⟨i, h⟩) (l.get ⟨i + 1, hil⟩) :=
          hget ⟨i, h⟩ ⟨i + 1, hil⟩ (Fin.mk_lt_mk.mpr (by omega))
        have h2 : dirRel d (l.get ⟨i + 1, hil⟩) (l.get ⟨i + 1 + j, hjl⟩) :=
          hget ⟨i + 1, hil⟩ ⟨i + 1 + j, hjl⟩ (Fin.mk_lt_mk.mpr (by omega))
        rw [hjeq] at h2
        exact dirRel_antisymm d h2 h1
    rw [List.get?_eq_get hil, heqsucc]

theorem inv_remove (cfg : GroupConfig) (hgr : cfg.groupingEnabled = true)
    (c : CacheListState) (i : Nat) (hInv : CacheListInv cfg c) :
    CacheListInv cfg (flecs_query_cache_remove_table_node cfg c i).1 := by
  obtain ⟨hp, hb, hm⟩ := hInv
  by_cases h : i < c.list.length
  · have hGmem : c.list.get ⟨i, h⟩ ∈ c.list := c.list.get_mem i h
    have hlk : alookup (c.list.get ⟨i, h⟩) c.groups ≠ none := by
      have hs := (hm _).mpr hGmem
      intro hcon
      rw [hcon] at hs
      simp at hs
    rw [remove_grouping_eq cfg c i h hgr hlk]
    have heq := take_get_drop_eq c.list i h
    have herase := eraseIdx_eq_take_append_drop c.list i h
    have hsubl : List.Sublist (c.list.eraseIdx i) c.list :=
      c.list.eraseIdx_sublist i
    by_cases hdup : c.list.get ⟨i, h⟩ ∈ c.list.take i ∨
        c.list.get ⟨i, h⟩ ∈ c.list.drop (i + 1)
    · have hnb := sorted_dup_neighbor (cacheDesc cfg) c.list hp i h hdup
      have hflag : removedGroupFlag (c.list.get ⟨i, h⟩)
          (if i = 0 then none else c.list.get? (i - 1))
          (c.list.get? (i + 1)) = false := by
        rcases hnb with ⟨hi0, hprev⟩ | hnext
        · apply removedGroupFlag_false
          left
          rw [if_neg (by omega : ¬ i = 0)]
          exact hprev
        · exact removedGroupFlag_false (Or.inr hnext)
      rw [hflag, if_neg Bool.false_ne_true]
      refine ⟨hp.sublist hsubl, fun x hx => hb x (hsubl.subset hx), fun g' => ?_⟩
      show (alookup g' c.groups).isSome ↔ g' ∈ c.list.eraseIdx i
      rw [hm g']
      constructor
      · intro hg'
        rw [herase]
        rw [← heq] at hg'
        rcases List.mem_append.mp hg' with hA | hGB
        · exact List.mem_append.mpr (Or.inl hA)
        · rcases List.mem_cons.mp hGB with rfl | hB
          · rcases hdup with hA2 | hB2
            · exact List.mem_append.mpr (Or.inl hA2)
            · exact List.mem_append.mpr (Or.inr hB2)
          · exact List.mem_append.mpr (Or.inr hB)
      · intro hg'
        exact hsubl.subset hg'
    · push_neg at hdup
      obtain ⟨hdA, hdB⟩ := hdup
      have hflag : removedGroupFlag (c.list.get ⟨i, h⟩)
          (if i = 0 then none else c.list.get? (i - 1))
          (c.list.get? (i + 1)) = true := by
        apply removedGroupFlag_true
        · intro x hx
          by_cases hi0 : i = 0
          · rw [if_pos hi0] at hx
            exact absurd hx (by simp)
          · rw [if_neg hi0] at hx
            rcases List.get?_eq_some.mp hx with ⟨hlen, hget⟩
            intro hcon
            apply hdA
            rw [← hcon, ← hget]
            exact get_mem_take c.list i (i - 1) (by omega) hlen
        · intro x hx
          rcases List.get?_eq_some.mp hx with ⟨hlen, hget⟩
          intro hcon
          apply hdB
          rw [← hcon, ← hget]
          exact get_mem_drop c.list (i + 1) (i + 1) (by omega) hlen
      rw [hflag, if_pos rfl]
      refine ⟨hp.sublist hsubl, fun x hx => hb x (hsubl.subset hx), fun g' => ?_⟩
      show (alookup g' (aremove (c.list.get ⟨i, h⟩) c.groups)).isSome ↔
        g' ∈ c.list.eraseIdx i
      rw [alookup_aremove]
      by_cases hgg : g' = c.list.get ⟨i, h⟩
      · rw [if_pos hgg]
        simp only [Option.isSome_none, Bool.false_eq_true, false_iff]
        intro hcon
        rw [herase] at hcon
        subst hgg
        rcases List.mem_append.mp hcon with hA | hB
        · exact hdA hA
        · exact hdB hB
      · rw [if_neg hgg, hm g']
        constructor
        · intro hg'
          rw [herase]
          rw [← heq] at hg'
          rcases List.mem_append.mp hg' with hA | hGB
          · exact List.mem_append.mpr (Or.inl hA)
          · rcases List.mem_cons.mp hGB with heq2 | hB
            · exact absurd heq2 hgg
            · exact List.mem_append.mpr (Or.inr hB)
        · intro hg'
          exact hsubl.subset hg'
  · rw [remove_oob cfg c i h]
    exact ⟨hp, hb, hm⟩

theorem inv_empty (cfg : GroupConfig) : CacheListInv cfg emptyCacheState := by
  refine ⟨List.Pairwise.nil, by simp [emptyCacheState], fun g => ?_⟩
  simp [emptyCacheState, alookup]

theorem inv_runCacheOps (cfg : GroupConfig)
    (hgr : cfg.groupingEnabled = true) :
    ∀ (ops : List CacheOp) (c : CacheListState), CacheListInv cfg c →
      (∀ op ∈ ops, opBound op) →
      CacheListInv cfg (ops.foldl (applyCacheOp cfg) c) := by
  intro ops
  induction ops with
  | nil => intro c hc _; exact hc
  | cons op rest ih =>
      intro c hc hb
      rw [List.foldl_cons]
      apply ih
      · cases op with
        | insert g =>
            exact inv_insert cfg hgr c g hc (hb _ (List.mem_cons_self _ _))
        | removeAt i => exact inv_remove cfg hgr c i hc
      · intro o ho
        exact hb o (List.mem_cons_of_mem _ ho)

/-- C1: for every cache with grouping enabled and every sequence of match
insertions and removals applied to the initially empty cache (with
64-bit group-by values), the ordered match list stays sliced into
contiguous group runs whose group ids are monotone along the list:
ascending by default, descending when the cascade term carries the Desc
modifier.  The first conjunct states that the per-match group ids are
weakly monotone in the configured direction, which is equivalent to the
runs of equal ids being contiguous with strictly monotone run ids; the
second states that the group index holds exactly the ids occurring in
the list, so the group sub-lists (each delimited by the first and last
occurrence of its id) slice the whole list. -/
theorem c1_grouped_list_monotone (cfg : GroupConfig) (ops : List CacheOp)
    (hgr : cfg.groupingEnabled = true) (hb : ∀ op ∈ ops, opBound op) :
    (runCacheOps cfg ops).list.Pairwise (dirRel (cacheDesc cfg)) ∧
      (∀ g : Nat, (alookup g (runCacheOps cfg ops).groups).isSome ↔
        g ∈ (runCacheOps cfg ops).list) := by
  have h := inv_runCacheOps cfg hgr ops emptyCacheState (inv_empty cfg) hb
  exact ⟨h.1, h.2.2⟩

theorem c1_grouped_list_monotone_witness :
    (∀ op ∈ c1WitnessOps, opBound op) ∧
      ((runCacheOps c1WitnessCfg c1WitnessOps).list.Pairwise
          (dirRel (cacheDesc c1WitnessCfg)) ∧
        (∀ g : Nat,
          (alookup g (runCacheOps c1WitnessCfg c1WitnessOps).groups).isSome ↔
            g ∈ (runCacheOps c1WitnessCfg c1WitnessOps).list)) :=
  ⟨by
    intro op hop
    simp [c1WitnessOps] at hop
    rcases hop with rfl | rfl | rfl | rfl | rfl <;> norm_num [opBound, u64],
   c1_grouped_list_monotone c1WitnessCfg c1WitnessOps rfl
    (by
      intro op hop
      simp [c1WitnessOps] at hop
      rcases hop with rfl | rfl | rfl | rfl | rfl <;> norm_num [opBound, u64])⟩

/-! Counter behavior of insertion, removal and moves. -/

theorem insert_matchCount (cfg : GroupConfig) (c : CacheListState) (g : Nat) :
    (flecs_query_cache_insert_table_node cfg c g).1.matchCount =
      c.matchCount + 1 := by
  cases hgr : cfg.groupingEnabled
  · rw [insert_nongrouping_eq cfg c g hgr]
  · rw [insert_grouping_eq cfg c g hgr]

theorem remove_matchCount_linked (cfg : GroupConfig) (c : CacheListState)
    (i : Nat) (h : i < c.list.length)
    (hlk : cfg.groupingEnabled = true →
      (alookup (c.list.get ⟨i, h⟩) c.groups).isSome) :
    (flecs_query_cache_remove_table_node cfg c i).1.matchCount =
      c.matchCount + 1 := by
  cases hgr : cfg.groupingEnabled
  · rw [remove_nongrouping cfg c i h hgr]
  · have hlk2 : alookup (c.list.get ⟨i, h⟩) c.groups ≠ none := by
      have := hlk hgr
      intro hcon
      rw [hcon] at this
      simp at this
    rw [remove_grouping_eq cfg c i h hgr hlk2]
    cases hfl : removedGroupFlag (c.list.get ⟨i, h⟩)
        (if i = 0 then none else c.list.get? (i - 1)) (c.list.get? (i + 1))
    · rw [if_neg Bool.false_ne_true]
    · rw [if_pos rfl]

theorem remove_matchCount_ge (cfg : GroupConfig) (c : CacheListState)
    (i : Nat) :
    c.matchCount ≤ (flecs_query_cache_remove_table_node cfg c i).1.matchCount := by
  by_cases h : i < c.list.length
  · cases hgr : cfg.groupingEnabled
    · rw [remove_nongrouping cfg c i h hgr]
      exact Nat.le_succ _
    · by_cases hlk : alookup (c.list.get ⟨i, h⟩) c.groups = none
      · rw [remove_unlisted cfg c i h hgr hlk]
      · rw [remove_grouping_eq cfg c i h hgr hlk]
        cases hfl : removedGroupFlag (c.list.get ⟨i, h⟩)
            (if i = 0 then none else c.list.get? (i - 1)) (c.list.get? (i + 1))
        · rw [if_neg Bool.false_ne_true]
          exact Nat.le_succ _
        · rw [if_pos rfl]
          exact Nat.le_succ _
  · rw [remove_oob cfg c i h]

/-- C4: match_count strictly increases on every mutation of the ordered
match list.  Conjunct 1: inserting a match leaves match_count exactly one
larger.  Conjunct 2: removing a linked match (one at a valid list
position whose group, under grouping, is present in the group index, as
it always is for a linked match of a consistent cache) leaves
match_count exactly one larger.  Conjunct 3: the remove-and-reinsert
move of a match between groups during rematch leaves match_count
strictly greater.  Conjunct 4: no list operation ever decreases
match_count. -/
theorem c4_match_count_strictly_increases :
    (∀ (cfg : GroupConfig) (c : CacheListState) (g : Nat),
      (flecs_query_cache_insert_table_node cfg c g).1.matchCount =
        c.matchCount + 1) ∧
    (∀ (cfg : GroupConfig) (c : CacheListState) (i : Nat)
      (h : i < c.list.length),
      (cfg.groupingEnabled = true →
        (alookup (c.list.get ⟨i, h⟩) c.groups).isSome) →
      (flecs_query_cache_remove_table_node cfg c i).1.matchCount =
        c.matchCount + 1) ∧
    (∀ (cfg : GroupConfig) (c : CacheListState) (i g : Nat),
      c.matchCount < (rematch_move_table_node cfg c i g).matchCount) ∧
    (∀ (cfg : GroupConfig) (c : CacheListState) (op : CacheOp),
      c.matchCount ≤ (applyCacheOp cfg c op).matchCount) := by
  refine ⟨insert_matchCount, remove_matchCount_linked, ?_, ?_⟩
  · intro cfg c i g
    have h1 := remove_matchCount_ge cfg c i
    have h2 := insert_matchCount cfg
      (flecs_query_cache_remove_table_node cfg c i).1 g
    unfold rematch_move_table_node
    omega
  · intro cfg c op
    cases op with
    | insert g =>
        have := insert_matchCount cfg c g
        show c.matchCount ≤
          (flecs_query_cache_insert_table_node cfg c g).1.matchCount
        omega
    | removeAt i => exact remove_matchCount_ge cfg c i

theorem c4_match_count_strictly_increases_witness :
    ((flecs_query_cache_insert_table_node c4WitnessCfg c4WitnessState
        8).1.matchCount = c4WitnessState.matchCount + 1) ∧
    ((1 : Nat) < c4WitnessState.list.length) ∧
    ((flecs_query_cache_remove_table_node c4WitnessCfg c4WitnessState
        1).1.matchCount = c4WitnessState.matchCount + 1) ∧
    (c4WitnessState.matchCount <
      (rematch_move_table_node c4WitnessCfg c4WitnessState 1 8).matchCount) ∧
    (c4WitnessState.matchCount ≤
      (applyCacheOp c4WitnessCfg c4WitnessState (.removeAt 0)).matchCount) :=
  ⟨c4_match_count_strictly_increases.1 c4WitnessCfg c4WitnessState 8,
   by decide,
   c4_match_count_strictly_increases.2.1 c4WitnessCfg c4WitnessState 1
     (by decide) (fun _ => by decide),
   c4_match_count_strictly_increases.2.2.1 c4WitnessCfg c4WitnessState 1 8,
   c4_match_count_strictly_increases.2.2.2 c4WitnessCfg c4WitnessState
     (.removeAt 0)⟩

/-! Group deletion on the removal of the last match of a group. -/

theorem removedFlag_of_not_dup (l : List Nat) (i : Nat) (h : i < l.length)
    (hdA : l.get ⟨i, h⟩ ∉ l.take i) (hdB : l.get ⟨i, h⟩ ∉ l.drop (i + 1)) :
    removedGroupFlag (l.get ⟨i, h⟩)
      (if i = 0 then none else l.get? (i - 1)) (l.get? (i + 1)) = true := by
  apply removedGroupFlag_true
  · intro x hx
    by_cases hi0 : i = 0
    · rw [if_pos hi0] at hx
      exact absurd hx (by simp)
    · rw [if_neg hi0] at hx
      rcases List.get?_eq_some.mp hx with ⟨hlen, hget⟩
      intro hcon
      apply hdA
      rw [← hcon, ← hget]
      exact get_mem_take l i (i - 1) (by omega) hlen
  · intro x hx
    rcases List.get?_eq_some.mp hx with ⟨hlen, hget⟩
    intro hcon
    apply hdB
    rw [← hcon, ← hget]
    exact get_mem_drop l (i + 1) (i + 1) (by omega) hlen

/-- C6: in a grouped cache, removing the match that is the last remaining
match of its group (its group id occurs exactly once in the ordered
list) fires on_group_delete for that group id with the group context
exactly when the callback is registered, and deletes the group from the
group index. -/
theorem c6_remove_last_match_deletes_group (cfg : GroupConfig)
    (c : CacheListState) (i : Nat) (h : i < c.list.length) (G ctx : Nat)
    (hgr : cfg.groupingEnabled = true) (hG : c.list.get ⟨i, h⟩ = G)
    (hcount : c.list.count G = 1) (hctx : alookup G c.groups = some ctx) :
    (flecs_query_cache_remove_table_node cfg c i).2 =
      (if cfg.hasOnGroupDelete then [(G, ctx)] else []) ∧
    alookup G (flecs_query_cache_remove_table_node cfg c i).1.groups =
      none := by
  subst hG
  have hlk : alookup (c.list.get ⟨i, h⟩) c.groups ≠ none := by
    rw [hctx]
    simp
  have heq := take_get_drop_eq c.list i h
  have hcnt : (c.list.take i).count (c.list.get ⟨i, h⟩) + 1 +
      (c.list.drop (i + 1)).count (c.list.get ⟨i, h⟩) = 1 := by
    have h2 : ((c.list.take i) ++
        c.list.get ⟨i, h⟩ :: (c.list.drop (i + 1))).count
          (c.list.get ⟨i, h⟩) = 1 := by
      rw [heq]
      exact hcount
    rw [List.count_append, List.count_cons_self] at h2
    omega
  have hdA : c.list.get ⟨i, h⟩ ∉ c.list.take i := by
    intro hmem
    have := List.count_pos_iff.mpr hmem
    omega
  have hdB : c.list.get ⟨i, h⟩ ∉ c.list.drop (i + 1) := by
    intro hmem
    have := List.count_pos_iff.mpr hmem
    omega
  have hflag := removedFlag_of_not_dup c.list i h hdA hdB
  rw [remove_grouping_eq cfg c i h hgr hlk, hflag, if_pos rfl]
  constructor
  · have hctx2 : alookup c.list[i] c.groups = some ctx := hctx
    simp [hctx2]
  · rw [alookup_aremove, if_pos rfl]

theorem c6_remove_last_match_deletes_group_witness :
    ((1 : Nat) < c6WitnessState.list.length) ∧
    (c6WitnessState.list.count 5 = 1) ∧
    (alookup 5 c6WitnessState.groups = some 105) ∧
    ((flecs_query_cache_remove_table_node c6WitnessCfg c6WitnessState 1).2 =
        (if c6WitnessCfg.hasOnGroupDelete then [(5, 105)] else []) ∧
      alookup 5
        (flecs_query_cache_remove_table_node c6WitnessCfg
          c6WitnessState 1).1.groups = none) :=
  ⟨by decide, by decide, by decide,
   c6_remove_last_match_deletes_group c6WitnessCfg c6WitnessState 1
     (by decide) 5 105 rfl (by decide) (by decide) (by decide)⟩

/-! Facts about the table index and the rematch sweep. -/

theorem alookup_eq_none {β : Type} (k : Nat) (m : List (Nat × β)) :
    alookup k m = none ↔ ∀ p ∈ m, p.1 ≠ k := by
  induction m with
  | nil => simp [alookup]
  | cons p rest ih =>
      by_cases hp : p.1 = k
      · simp [alookup, hp]
      · simp [alookup, hp, ih]

theorem mem_ensureMark {rc : Nat} {tables : List (Nat × QueryCacheTable)}
    {p : Nat × Nat} {q : Nat × QueryCacheTable}
    (hq : q ∈ rematchEnsureMark rc tables p) :
    q ∈ tables ∨ (q.1 = p.1 ∧ q.2 = ⟨List.replicate p.2 p.1, rc⟩) := by
  unfold rematchEnsureMark at hq
  cases hl : alookup p.1 tables with
  | none =>
      rw [hl] at hq
      rcases List.mem_append.mp hq with h1 | h1
      · exact Or.inl h1
      · rcases List.mem_singleton.mp h1 with rfl
        exact Or.inr ⟨rfl, rfl⟩
  | some e =>
      rw [hl] at hq
      rcases List.mem_map.mp hq with ⟨r, hr, hre⟩
      by_cases hrp : r.1 = p.1
      · rw [if_pos hrp] at hre
        subst hre
        exact Or.inr ⟨hrp, rfl⟩
      · rw [if_neg hrp] at hre
        subst hre
        exact Or.inl hr

theorem keys_nodup_ensureMark (rc : Nat)
    (tables : List (Nat × QueryCacheTable)) (p : Nat × Nat)
    (h : (tables.map Prod.fst).Nodup) :
    ((rematchEnsureMark rc tables p).map Prod.fst).Nodup := by
  unfold rematchEnsureMark
  cases hl : alookup p.1 tables with
  | none =>
      have hnk : p.1 ∉ tables.map Prod.fst := by
        intro hmem
        rcases List.mem_map.mp hmem with ⟨r, hr, hre⟩
        exact (alookup_eq_none p.1 tables).mp hl r hr hre
      rw [List.map_append]
      rw [List.nodup_append]
      exact ⟨h, List.nodup_singleton _, by
        intro a ha hb
        rcases List.mem_singleton.mp hb with rfl
        exact hnk ha⟩
  | some e =>
      have hkeys : ((tables.map fun q =>
          if q.1 = p.1 then (q.1, (⟨List.replicate p.2 p.1, rc⟩ : QueryCacheTable))
          else q).map Prod.fst) = tables.map Prod.fst := by
        rw [List.map_map]
        apply List.map_congr_left
        intro a _
        by_cases hap : a.1 = p.1 <;> simp [hap]
      rw [hkeys]
      exact h

theorem keys_nodup_fold {rc : Nat} :
    ∀ (results : List (Nat × Nat)) (tables : List (Nat × QueryCacheTable)),
      (tables.map Prod.fst).Nodup →
      ((results.foldl (rematchEnsureMark rc) tables).map Prod.fst).Nodup := by
  intro results
  induction results with
  | nil => intro tables h; exact h
  | cons r rest ih =>
      intro tables h
      rw [List.foldl_cons]
      exact ih _ (keys_nodup_ensureMark rc tables r h)

theorem mem_fold_ensureMark {rc : Nat} :
    ∀ (results : List (Nat × Nat)) (tables : List (Nat × QueryCacheTable))
      (q : Nat × QueryCacheTable),
      (∀ p ∈ results, 0 < p.2) →
      q ∈ results.foldl (rematchEnsureMark rc) tables →
      q ∈ tables ∨ (q.2.rematch_count = rc ∧
        ∃ n, 0 < n ∧ q.2.matchChain = List.replicate n q.1) := by
  intro results
  induction results with
  | nil => intro tables q _ hq; exact Or.inl hq
  | cons r rest ih =>
      intro tables q hc hq
      rw [List.foldl_cons] at hq
      rcases ih _ q (fun p hp => hc p (List.mem_cons_of_mem r hp)) hq with
        h1 | h1
      · rcases mem_ensureMark h1 with h2 | ⟨h2a, h2b⟩
        · exact Or.inl h2
        · refine Or.inr ⟨by rw [h2b], r.2, hc r (List.mem_cons_self r rest), ?_⟩
          rw [h2b, h2a]
      · exact Or.inr h1

theorem mem_fold_ensureMark_not_key {rc : Nat} :
    ∀ (results : List (Nat × Nat)) (tables : List (Nat × QueryCacheTable))
      (q : Nat × QueryCacheTable),
      q ∈ results.foldl (rematchEnsureMark rc) tables →
      q.1 ∉ results.map Prod.fst → q ∈ tables := by
  intro results
  induction results with
  | nil => intro tables q hq _; exact hq
  | cons r rest ih =>
      intro tables q hq hk
      rw [List.foldl_cons] at hq
      have hk2 : q.1 ∉ rest.map Prod.fst := by
        intro h
        exact hk (List.mem_cons_of_mem _ h)
      rcases mem_ensureMark (ih _ q hq hk2) with h1 | ⟨h1a, _⟩
      · exact h1
      · exact absurd (by rw [h1a]; exact List.mem_cons_self _ _ :
          q.1 ∈ r.1 :: rest.map Prod.fst) hk

theorem rematch_neq_eq (s : CacheTableState) (worldGen : Nat)
    (results : List (Nat × Nat)) (hlag : s.monitor_generation ≠ worldGen) :
    flecs_query_rematch s worldGen results =
      ⟨(results.foldl (rematchEnsureMark (s.rematch_count + 1))
          s.tables).filter
         (fun q => q.2.rematch_count == s.rematch_count + 1),
       s.rematch_count + 1, worldGen⟩ := by
  simp [flecs_query_rematch, hlag]

theorem tableInv_step {s s' : CacheTableState} (hstep : CacheTableStep s s')
    (hinv : TableInv s) : TableInv s' := by
  obtain ⟨hk, hent⟩ := hinv
  cases hstep with
  | matchNew t n hnew =>
      by_cases hn : n = 0
      · simp only [flecs_query_cache_match_table, if_pos hn]
        exact ⟨hk, hent⟩
      · simp only [flecs_query_cache_match_table, if_neg hn]
        constructor
        · rw [List.map_append, List.nodup_append]
          refine ⟨hk, List.nodup_singleton _, ?_⟩
          intro a ha hb
          rcases List.mem_singleton.mp hb with rfl
          rcases List.mem_map.mp ha with ⟨r, hr, hre⟩
          exact (alookup_eq_none _ s.tables).mp hnew r hr hre
        · intro p hp
          rcases List.mem_append.mp hp with h1 | h1
          · obtain ⟨e1, e2, e3⟩ := hent p h1
            exact ⟨e1, e2, e3⟩
          · rcases List.mem_singleton.mp h1 with rfl
            refine ⟨by simp [hn], ?_, by simp⟩
            intro m hm
            exact List.eq_of_mem_replicate hm
  | unmatch t =>
      constructor
      · have hsub : List.Sublist ((aremove t s.tables).map Prod.fst)
            (s.tables.map Prod.fst) :=
          (List.filter_sublist _).map Prod.fst
        exact hk.sublist hsub
      · intro p hp
        exact hent p (List.mem_filter.mp hp).1
  | rematchStep g results hks hc =>
      by_cases hgen : s.monitor_generation = g
      · simp only [flecs_query_rematch, if_pos hgen]
        exact ⟨hk, hent⟩
      · rw [rematch_neq_eq s g results hgen]
        constructor
        · have hsub : List.Sublist
              (((results.foldl (rematchEnsureMark (s.rematch_count + 1))
                  s.tables).filter
                 (fun q => q.2.rematch_count == s.rematch_count + 1)).map
                Prod.fst)
              ((results.foldl (rematchEnsureMark (s.rematch_count + 1))
                  s.tables).map Prod.fst) :=
            (List.filter_sublist _).map Prod.fst
          exact (keys_nodup_fold results s.tables hk).sublist hsub
        · intro p hp
          have hp2 := (List.mem_filter.mp hp).1
          rcases mem_fold_ensureMark results s.tables p hc hp2 with h1 | h1
          · obtain ⟨e1, e2, e3⟩ := hent p h1
            exact ⟨e1, e2, by simp; omega⟩
          · obtain ⟨hrc, n, hn, hchain⟩ := h1
            refine ⟨by rw [hchain]; simp; omega, ?_, by simp [hrc]⟩
            intro m hm
            rw [hchain] at hm
            exact List.eq_of_mem_replicate hm

theorem tableInv_reachable {s : CacheTableState}
    (h : CacheTableReachable s) : TableInv s := by
  induction h with
  | refl =>
      exact ⟨by simp [initialTableState], by simp [initialTableState]⟩
  | tail hsteps hstep ih => exact tableInv_step hstep ih

/-- C2: for every non-trivial cache whose monitor generation lags the
world generation (the caches of this model never use the trivial layout,
which cannot rematch), after the rematch sweep every TableEntry left in
the table index carries the new rematch_count of the cache, and every
table that the uncached iterator no longer yields has been unmatched:
its entry, together with the match chain the entry owns, is gone from
the table index. -/
theorem c2_rematch_postcondition (s : CacheTableState) (worldGen : Nat)
    (results : List (Nat × Nat)) (hre : CacheTableReachable s)
    (hlag : s.monitor_generation ≠ worldGen)
    (hk : (results.map Prod.fst).Nodup) (hc : ∀ p ∈ results, 0 < p.2) :
    (∀ p ∈ (flecs_query_rematch s worldGen results).tables,
      p.2.rematch_count =
        (flecs_query_rematch s worldGen results).rematch_count) ∧
    (∀ t : Nat, t ∉ results.map Prod.fst →
      alookup t (flecs_query_rematch s worldGen results).tables = none) := by
  obtain ⟨hknd, hent⟩ := tableInv_reachable hre
  rw [rematch_neq_eq s worldGen results hlag]
  constructor
  · intro p hp
    have := (List.mem_filter.mp hp).2
    simpa using this
  · intro t ht
    rw [alookup_eq_none]
    intro p hp hcon
    have hp2 := (List.mem_filter.mp hp).1
    have hrc : p.2.rematch_count = s.rematch_count + 1 := by
      have := (List.mem_filter.mp hp).2
      simpa using this
    have hmem : p ∈ s.tables := by
      apply mem_fold_ensureMark_not_key results s.tables p hp2
      rw [hcon]
      exact ht
    have := (hent p hmem).2.2
    omega

theorem c2_rematch_postcondition_witness :
    (initialTableState.monitor_generation ≠ 1) ∧
    (([(11, 1)] : List (Nat × Nat)).map Prod.fst).Nodup ∧
    (∀ p ∈ ([(11, 1)] : List (Nat × Nat)), 0 < p.2) ∧
    ((∀ p ∈ (flecs_query_rematch initialTableState 1 [(11, 1)]).tables,
        p.2.rematch_count =
          (flecs_query_rematch initialTableState 1 [(11, 1)]).rematch_count) ∧
      (∀ t : Nat, t ∉ ([(11, 1)] : List (Nat × Nat)).map Prod.fst →
        alookup t (flecs_query_rematch initialTableState 1 [(11, 1)]).tables =
          none)) :=
  ⟨by decide, by decide, by decide,
   c2_rematch_postcondition initialTableState 1 [(11, 1)]
     Relation.ReflTransGen.refl (by decide) (by decide) (by decide)⟩

/-- C5: when the cache monitor generation equals the world generation,
rematch returns immediately with the cache unchanged; consequently a
second rematch within the same world generation is a no-op, whatever
results the iterator would yield, so rematch is idempotent within one
monitor generation. -/
theorem c5_rematch_idempotent :
    (∀ (s : CacheTableState) (worldGen : Nat) (results : List (Nat × Nat)),
      s.monitor_generation = worldGen →
      flecs_query_rematch s worldGen results = s) ∧
    (∀ (s : CacheTableState) (worldGen : Nat)
      (r1 r2 : List (Nat × Nat)),
      flecs_query_rematch (flecs_query_rematch s worldGen r1) worldGen r2 =
        flecs_query_rematch s worldGen r1) := by
  have h1 : ∀ (s : CacheTableState) (worldGen : Nat)
      (results : List (Nat × Nat)), s.monitor_generation = worldGen →
      flecs_query_rematch s worldGen results = s := by
    intro s worldGen results h
    simp [flecs_query_rematch, h]
  refine ⟨h1, ?_⟩
  intro s worldGen r1 r2
  apply h1
  by_cases hgen : s.monitor_generation = worldGen
  · rw [h1 s worldGen r1 hgen]
    exact hgen
  · rw [rematch_neq_eq s worldGen r1 hgen]

theorem c5_rematch_idempotent_witness :
    (c5WitnessState.monitor_generation = 5 ∧
      flecs_query_rematch c5WitnessState 5 [(12, 1)] = c5WitnessState) ∧
    flecs_query_rematch (flecs_query_rematch c5WitnessState 6 [(12, 1)]) 6
        [] = flecs_query_rematch c5WitnessState 6 [(12, 1)] :=
  ⟨⟨rfl, c5_rematch_idempotent.1 c5WitnessState 5 [(12, 1)] rfl⟩,
   c5_rematch_idempotent.2 c5WitnessState 6 [(12, 1)] []⟩

theorem entityCount_go (tcount : Nat → Nat) :
    ∀ (L : List (Nat × QueryCacheTable)) (r : Nat),
      (∀ p ∈ L, p.2.matchChain.head? = some p.1) →
      L.foldl
        (fun acc p =>
          match acc, p.2.matchChain.head? with
          | some r2, some m => some (r2 + tcount m)
          | _, _ => none)
        (some r) = some (r + (L.map (fun p => tcount p.1)).sum) := by
  intro L
  induction L with
  | nil => intro r _; simp
  | cons p rest ih =>
      intro r hh
      have hp := hh p (List.mem_cons_self p rest)
      rw [List.foldl_cons]
      have hstep : (match (some r : Option Nat), p.2.matchChain.head? with
          | some r2, some m => some (r2 + tcount m)
          | _, _ => none) = some (r + tcount p.1) := by
        rw [hp]
      rw [hstep, ih (r + tcount p.1)
        (fun q hq => hh q (List.mem_cons_of_mem p hq))]
      simp [Nat.add_assoc]

/-- C10: in every reachable cache state, every TableEntry of the table
index has a non-null first match record (so the unchecked dereference in
flecs_query_cache_entity_count is safe), and entity_count returns the
sum, over the entries, of the entity count of the entry table, counting
every matched table exactly once (the keys are pairwise distinct) even
when wildcard matching produced several match records for a table. -/
theorem c10_entity_count (tcount : Nat → Nat) (s : CacheTableState)
    (hre : CacheTableReachable s) :
    (∀ p ∈ s.tables, (p.2.matchChain.head?).isSome) ∧
    (s.tables.map Prod.fst).Nodup ∧
    flecs_query_cache_entity_count tcount s =
      some ((s.tables.map (fun p => tcount p.1)).sum) := by
  obtain ⟨hk, hent⟩ := tableInv_reachable hre
  have hhead : ∀ p ∈ s.tables, p.2.matchChain.head? = some p.1 := by
    intro p hp
    obtain ⟨e1, e2, _⟩ := hent p hp
    cases hchain : p.2.matchChain with
    | nil => exact absurd hchain e1
    | cons m rest =>
        have : m = p.1 := e2 m (by rw [hchain]; exact List.mem_cons_self m rest)
        rw [this]
        rfl
  refine ⟨fun p hp => by rw [hhead p hp]; rfl, hk, ?_⟩
  unfold flecs_query_cache_entity_count
  have := entityCount_go tcount s.tables 0 hhead
  rw [this]
  simp

theorem c10_entity_count_witness :
    CacheTableReachable (flecs_query_cache_match_table initialTableState
      11 2) ∧
    ((∀ p ∈ (flecs_query_cache_match_table initialTableState 11 2).tables,
        (p.2.matchChain.head?).isSome) ∧
      ((flecs_query_cache_match_table initialTableState
          11 2).tables.map Prod.fst).Nodup ∧
      flecs_query_cache_entity_count (fun t => t)
          (flecs_query_cache_match_table initialTableState 11 2) =
        some (((flecs_query_cache_match_table initialTableState
          11 2).tables.map (fun p => p.1)).sum)) :=
  ⟨Relation.ReflTransGen.single
    (CacheTableStep.matchNew initialTableState 11 2 rfl),
   c10_entity_count (fun t => t) _
    (Relation.ReflTransGen.single
      (CacheTableStep.matchNew initialTableState 11 2 rfl))⟩

/-! Signature analysis: component monitors. -/

theorem mem_monitorTermIds (t : Term) (m : CacheId) :
    m ∈ monitorTermIds t ↔
      (t.src.up = true ∧
        (m = CacheId.pair t.trav EcsWildcard ∨
          (t.trav ≠ EcsIsA ∧ m = CacheId.pair EcsIsA EcsWildcard) ∨
          m = t.id)) ∨
      (t.src.up = false ∧ t.src.self = true ∧ t.matchThis = false ∧
        m = t.id) := by
  unfold monitorTermIds
  cases hup : t.src.up with
  | false =>
      cases hself : t.src.self with
      | false => simp [hup, hself]
      | true =>
          cases hmt : t.matchThis with
          | false => simp [hup, hself, hmt]
          | true => simp [hup, hself, hmt]
  | true =>
      by_cases htrav : t.trav = EcsIsA
      · simp [hup, htrav]
        try tauto
      · simp [hup, htrav]
        try tauto

/-- C3 counterexample: for the Up term c3CexTerm (traversal relation 5,
distinct from IsA, term id the entity 7) signature analysis also
registers a monitor on the term id itself (cache.c line 809), which the
claim rules out ("no other monitor is registered for that term": it only
lists the traversal pair and the inheritance wildcard pair for an Up
term). -/
theorem c3_monitor_registration_counterexample :
    c3CexTerm.src.up = true ∧
    CacheId.entity 7 ∈
      flecs_query_cache_for_each_component_monitor [c3CexTerm] ∧
    CacheId.entity 7 ∉ monitorsClaimedC3 c3CexTerm := by
  refine ⟨rfl, ?_, ?_⟩ <;> decide

/-- C3 amended: signature analysis registers, for each term, exactly
these monitors: when the term traverses Up, the pair (trav, Wildcard),
additionally the pair (IsA, Wildcard) when trav is not the inheritance
relation, and the term id; otherwise the term id exactly when the term
source carries Self and the term does not match the this variable; and
no other monitor for that term. -/
theorem c3_monitor_registration_amended (terms : List Term) (m : CacheId) :
    m ∈ flecs_query_cache_for_each_component_monitor terms ↔
      ∃ t ∈ terms,
        (t.src.up = true ∧
          (m = CacheId.pair t.trav EcsWildcard ∨
            (t.trav ≠ EcsIsA ∧ m = CacheId.pair EcsIsA EcsWildcard) ∨
            m = t.id)) ∨
        (t.src.up = false ∧ t.src.self = true ∧ t.matchThis = false ∧
          m = t.id) := by
  unfold flecs_query_cache_for_each_component_monitor
  rw [List.mem_bind]
  constructor
  · rintro ⟨t, ht, hm⟩
    exact ⟨t, ht, (mem_monitorTermIds t m).mp hm⟩
  · rintro ⟨t, ht, hm⟩
    exact ⟨t, ht, (mem_monitorTermIds t m).mpr hm⟩

/-! Cache initialization. -/

/-- Success inversion for the embedded init: on a successful
initialization the yield-empty-tables flag and the empty-tag decision
are the ones computed at lines 1249-1256, 1278-1283 and 1361-1365 of
cache.c. -/
theorem init_ok_inv (inp : InitInput) (r : QueryCacheConfig)
    (hok : flecs_query_cache_init inp = .ok r) :
    r.yieldEmptyTables = (if inp.desc.orderByCallback then false
      else (inp.desc.matchEmptyTables || inp.defaultMatchEmptyTables)) ∧
    r.emptyTagAdded = ((inp.desc.entity != 0) &&
      (inp.matchedTableCount == 0) && (inp.terms.length != 0)) := by
  unfold flecs_query_cache_init at hok
  by_cases h1 : inp.desc.canary ≠ 0
  · rw [if_pos h1] at hok
    exact absurd hok (by simp)
  · rw [if_neg h1] at hok
    by_cases h2 : inp.worldFini = true
    · rw [if_pos h2] at hok
      exact absurd hok (by simp)
    · rw [if_neg h2] at hok
      cases hsig : flecs_query_cache_process_signature inp.terms with
      | error e =>
          simp only [hsig] at hok
          exact absurd hok (by simp)
      | ok cb =>
          simp only [hsig] at hok
          by_cases h3 : ((inp.desc.groupByCallback ||
              (inp.desc.groupBy != 0)) && (cb != 0)) = true
          · rw [if_pos h3] at hok
            exact absurd hok (by simp)
          · rw [if_neg h3] at hok
            cases hord : (if inp.desc.orderByCallback then
                flecs_query_cache_order_by inp.terms inp.desc.orderBy
              else .ok none) with
            | error e =>
                simp only [hord] at hok
                exact absurd hok (by simp)
            | ok obt =>
                simp only [hord] at hok
                cases hok
                exact ⟨rfl, rfl⟩

/-- C7 counterexample: the zero-term descriptor c7CexInput binds entity 7
and matches no table, yet initialization succeeds without adding the
EcsEmpty tag (cache.c line 1362 also requires a nonzero term count),
contradicting the claim that init adds the tag whenever no table
matched. -/
theorem c7_empty_tag_counterexample :
    c7CexInput.desc.entity ≠ 0 ∧ c7CexInput.matchedTableCount = 0 ∧
    (flecs_query_cache_init c7CexInput).toOption.map
      (fun r => r.emptyTagAdded) = some false := by
  refine ⟨by decide, rfl, rfl⟩

/-- C7 amended (the claim fails on a query with zero terms, where no
table ever matches and the tag is still not added): init adds the
EcsEmpty tag to the query entity exactly when an entity is bound, no
table matched during population, and the query has at least one term;
and inserting a match removes the EcsEmpty tag from the entity exactly
when the ordered match list was empty and an entity is bound. -/
theorem c7_empty_tag_amended :
    (∀ (inp : InitInput) (r : QueryCacheConfig),
      flecs_query_cache_init inp = .ok r →
      (r.emptyTagAdded = true ↔
        (inp.desc.entity ≠ 0 ∧ inp.matchedTableCount = 0 ∧
          inp.terms ≠ []))) ∧
    (∀ (cfg : GroupConfig) (c : CacheListState) (g : Nat),
      (flecs_query_cache_insert_table_node cfg c g).2 = true ↔
        (c.list = [] ∧ cfg.entity ≠ 0)) := by
  constructor
  · intro inp r hok
    have h := (init_ok_inv inp r hok).2
    rw [h]
    simp [Ne, List.length_eq_zero, and_assoc]
  · intro cfg c g
    rw [insert_emptyRemoved_eq]
    simp [List.isEmpty_iff]

theorem c7_empty_tag_amended_witness :
    (flecs_query_cache_init c7WitnessInput = .ok c7WitnessResult) ∧
    (c7WitnessResult.emptyTagAdded = true ↔
      (c7WitnessInput.desc.entity ≠ 0 ∧
        c7WitnessInput.matchedTableCount = 0 ∧
        c7WitnessInput.terms ≠ [])) ∧
    ((flecs_query_cache_insert_table_node c7WitnessCfg emptyCacheState
        2).2 = true ↔
      (emptyCacheState.list = [] ∧ c7WitnessCfg.entity ≠ 0)) :=
  ⟨rfl, c7_empty_tag_amended.1 c7WitnessInput c7WitnessResult rfl,
   c7_empty_tag_amended.2 c7WitnessCfg emptyCacheState 2⟩

/-- C8: for every init descriptor that requests ordering (an order_by
callback is supplied), the MatchEmptyTables flag is cleared before it is
transferred to the cache, so a successfully created cache never carries
EcsQueryCacheYieldEmptyTables and does not treat empty tables as
matched. -/
theorem c8_order_by_clears_match_empty (inp : InitInput)
    (r : QueryCacheConfig) (hob : inp.desc.orderByCallback = true)
    (hok : flecs_query_cache_init inp = .ok r) :
    r.yieldEmptyTables = false := by
  have h := (init_ok_inv inp r hok).1
  rw [h, if_pos hob]

theorem c8_order_by_clears_match_empty_witness :
    c8WitnessInput.desc.orderByCallback = true ∧
    flecs_query_cache_init c8WitnessInput = .ok c8WitnessResult ∧
    c8WitnessResult.yieldEmptyTables = false :=
  ⟨rfl, rfl,
   c8_order_by_clears_match_empty c8WitnessInput c8WitnessResult rfl rfl⟩

theorem processSigGo_cascade_pos :
    ∀ (terms : List Term) (i cb n : Nat),
      processSigGo terms i cb = .ok n →
      (cb ≠ 0 ∨ ∃ t ∈ terms, t.src.cascade = true) → n ≠ 0 := by
  intro terms
  induction terms with
  | nil =>
      intro i cb n hok hyp
      cases hok
      rcases hyp with h | ⟨t, ht, _⟩
      · exact h
      · simp at ht
  | cons t rest ih =>
      intro i cb n hok hyp
      unfold processSigGo at hok
      split at hok
      · exact absurd hok (by simp)
      · split at hok
        · exact absurd hok (by simp)
        · split at hok
          · exact absurd hok (by simp)
          · split at hok
            · exact absurd hok (by simp)
            · apply ih (i + 1) (if t.src.cascade then i + 1 else cb) n hok
              by_cases hc : t.src.cascade
              · rw [if_pos hc]
                left
                omega
              · rw [if_neg hc]
                rcases hyp with h | ⟨t2, ht2, hcas2⟩
                · exact Or.inl h
                · rcases List.mem_cons.mp ht2 with rfl | h2
                  · exact absurd hcas2 (by simpa using hc)
                  · exact Or.inr ⟨t2, h2, hcas2⟩

/-- C9: for every init descriptor that combines a cascade term in the
query (so signature analysis succeeds with a nonzero cascade index) with
an explicit group_by id or group_by callback, initialization fails with
InvalidParameter (cache.c lines 1338-1340, "cannot mix cascade and
group_by") and the caller receives a null cache. -/
theorem c9_cascade_group_by_conflict (inp : InitInput) (t : Term) (n : Nat)
    (hcanary : inp.desc.canary = 0) (hfini : inp.worldFini = false)
    (hgroup : inp.desc.groupByCallback = true ∨ inp.desc.groupBy ≠ 0)
    (ht : t ∈ inp.terms) (hcas : t.src.cascade = true)
    (hsig : flecs_query_cache_process_signature inp.terms = .ok n) :
    flecs_query_cache_init inp = .error .invalidParameter := by
  have hn : n ≠ 0 :=
    processSigGo_cascade_pos inp.terms 0 0 n hsig (Or.inr ⟨t, ht, hcas⟩)
  have hcond : ((inp.desc.groupByCallback || (inp.desc.groupBy != 0)) &&
      ((n : Nat) != 0)) = true := by
    rcases hgroup with h | h <;> simp [h, hn]
  unfold flecs_query_cache_init
  rw [if_neg (by simp [hcanary])]
  rw [if_neg (by simp [hfini])]
  rw [hsig]
  simp [hcond]

theorem c9_cascade_group_by_conflict_witness :
    c9WitnessInput.desc.canary = 0 ∧ c9WitnessInput.worldFini = false ∧
    c9WitnessInput.desc.groupByCallback = true ∧
    cascadeTerm4 ∈ c9WitnessInput.terms ∧
    cascadeTerm4.src.cascade = true ∧
    flecs_query_cache_process_signature c9WitnessInput.terms =
      .ok 2 ∧
    flecs_query_cache_init c9WitnessInput = .error .invalidParameter :=
  ⟨rfl, rfl, rfl, by decide, rfl, rfl,
   c9_cascade_group_by_conflict c9WitnessInput cascadeTerm4 2 rfl rfl
     (Or.inl rfl) (by decide) rfl rfl⟩

end FlecsQueryCache
